import Mathlib

/-!
Verification development for the request-orchestration engine in
`src/crazy.ts` (queueing, per-key coordination, retry with backoff,
signal composition).  Every definition below is a shallow embedding of
the corresponding TypeScript source; the line numbers in the doc
comments refer to `src/crazy.ts`.
-/

set_option maxHeartbeats 1000000

/-- Error values thrown by the engine.  `abortError` models any
`DOMException` whose `name` is `"AbortError"` (timeout, manual cancel,
supersede, plain `controller.abort()`); the tag distinguishes concrete
reasons.  `httpStatus` models the `Error` thrown by `doFetch` on a
non-ok response (line 187).  `transportError` models a network failure
raised by `fetch` itself.  `typeError` models the JavaScript
`TypeError` raised when reading a property of `undefined`.
`droppedError` models the drop rejection of `enqueue` (line 134).
`undefinedThrown` models `throw errLast` with `errLast` still
`undefined`. -/
inductive JSError where
  | abortError (tag : Nat)
  | httpStatus (status : Nat)
  | transportError (tag : Nat)
  | typeError
  | droppedError
  | undefinedThrown
deriving DecidableEq, Repr

/-- The only field of a response the engine inspects is `status`
(`res.ok`, `res.status`). -/
structure JSResponse where
  status : Nat
deriving DecidableEq, Repr

/-- `res.ok` is true exactly for 2xx statuses. -/
def resOk (r : JSResponse) : Bool := 200 ≤ r.status && r.status < 300

/-- `err?.name === "AbortError"` (line 159). -/
def isAbortError : JSError → Bool
  | .abortError _ => true
  | _ => false

/-- Outcome of a call or of a parser: a parsed value (modelled as a
natural number) or a thrown error. -/
inductive Outcome where
  | ok (v : Nat)
  | err (e : JSError)
deriving DecidableEq, Repr

/-- `RetryPolicy` (lines 5-11).  Numeric fields are optional, with the
defaults of `calcBackoffDelay` applied at use sites; `retryOn` is the
optional retryability predicate. -/
structure RetryPolicy where
  attempts : Nat
  backoffBaseMs : Option ℚ
  backoffFactor : Option ℚ
  jitterRatio : Option ℚ
  retryOn : Option (Option JSResponse → Option JSError → Bool)

/-- `Math.pow` restricted to natural exponents, as used by
`calcBackoffDelay`. -/
def qpow (q : ℚ) : Nat → ℚ
  | 0 => 1
  | n + 1 => q * qpow q n

/-- JavaScript `Math.round`: round half toward positive infinity,
`Math.round x = ⌊x + 1/2⌋`. -/
def jsRound (x : ℚ) : ℤ := ⌊x + 1 / 2⌋

/-- `raw = base * Math.pow(factor, Math.max(0, attemptIndex))`
(line 72), with the defaults `base = 150`, `factor = 2` (lines 69-70). -/
def rawOf (p : RetryPolicy) (attemptIndex : ℤ) : ℚ :=
  p.backoffBaseMs.getD 150 * qpow (p.backoffFactor.getD 2) (max 0 attemptIndex).toNat

/-- `calcBackoffDelay` (lines 68-75).  `u` is the already-drawn value of
`Math.random() * 2 - 1`, which lies in `[-1, 1]`; the jitter default is
`0.2 = 1/5` (line 71). -/
def calcBackoffDelay (u : ℚ) (attemptIndex : ℤ) (p : RetryPolicy) : ℤ :=
  let raw := rawOf p attemptIndex
  let jitterAmt := raw * p.jitterRatio.getD (1 / 5) * u
  max 0 (jsRound (raw + jitterAmt))

/-- The default retryability predicate (lines 146-151): retry on any
truthy error; with no error and no response, retry; otherwise retry
only on status 502, 503 or 504. -/
def defaultRetryOn (res : Option JSResponse) (err : Option JSError) : Bool :=
  match err with
  | some _ => true
  | none =>
    match res with
    | none => true
    | some r => r.status == 502 || r.status == 503 || r.status == 504

/-- `p?.retryOn ?? default` (lines 145-151). -/
def shouldRetryOf (p : Option RetryPolicy) : Option JSResponse → Option JSError → Bool :=
  match p with
  | some q =>
    match q.retryOn with
    | some f => f
    | none => defaultRetryOn
  | none => defaultRetryOn

/-- Hook invocations observable during one call (`onStart`, `onFinish`;
lines 178, 183). -/
inductive HookEv where
  | start
  | finish (ok : Bool) (status : Nat)
deriving DecidableEq, Repr

/-- `doFetch` (lines 169-194) for a single attempt.  `fetched` is the
outcome of the `fetch` call itself (a response, or a thrown
transport/abort error); `parse` is the chosen parser.  The hook log
records: `onStart` fires before `fetch`; `onFinish` fires only once a
response exists, before the non-ok throw and before parsing. -/
def doFetch (parse : JSResponse → Outcome) (fetched : Except JSError JSResponse) :
    List HookEv × Outcome :=
  match fetched with
  | .error e => ([.start], .err e)
  | .ok r =>
    if resOk r then ([.start, .finish true r.status], parse r)
    else ([.start, .finish false r.status], .err (.httpStatus r.status))

/-- Observable result of `runWithRetry`: the settled outcome, how many
attempts were actually executed, the backoff sleeps performed, and the
hook log of all attempts. -/
structure RunResult where
  result : Outcome
  attemptsMade : Nat
  sleeps : List ℤ
  log : List HookEv
deriving DecidableEq, Repr

/-- The loop body of `runWithRetry` (lines 153-166), starting at
attempt index `i` with `fuel` remaining loop iterations (the loop runs
for `i < (p?.attempts ?? 1)`).  `fetched j` is the fetch outcome of
attempt `j`, `u j` the random draw used for the backoff before attempt
`j+1`.  Faithful points: an `AbortError` is rethrown without retry
(line 160); `willRetry` evaluates `p!.attempts` (line 161), which
throws a `TypeError` when no policy is present; the final `throw
errLast` (line 166) is reached only when the loop never ran. -/
def runWithRetryGo (p : Option RetryPolicy) (parse : JSResponse → Outcome)
    (fetched : Nat → Except JSError JSResponse) (u : Nat → ℚ) :
    Nat → Nat → Option JSError → RunResult
  | _, 0, errLast =>
    ⟨.err (match errLast with | some e => e | none => .undefinedThrown), 0, [], []⟩
  | i, fuel + 1, _ =>
    let att := doFetch parse (fetched i)
    match att.2 with
    | .ok v => ⟨.ok v, 1, [], att.1⟩
    | .err e =>
      if isAbortError e then ⟨.err e, 1, [], att.1⟩
      else
        match p with
        | none => ⟨.err .typeError, 1, [], att.1⟩
        | some q =>
          let willRetry : Bool := decide (i + 1 < q.attempts) && shouldRetryOf (some q) none (some e)
          if willRetry then
            let rest := runWithRetryGo p parse fetched u (i + 1) fuel (some e)
            ⟨rest.result, rest.attemptsMade + 1,
              calcBackoffDelay (u i) (i : ℤ) q :: rest.sleeps, att.1 ++ rest.log⟩
          else ⟨.err e, 1, [], att.1⟩

/-- `runWithRetry` (lines 143-167).  `p` is the already-coalesced
policy `options.retry ?? config.retry`; the loop bound is
`p?.attempts ?? 1` (line 154). -/
def runWithRetry (p : Option RetryPolicy) (parse : JSResponse → Outcome)
    (fetched : Nat → Except JSError JSResponse) (u : Nat → ℚ) : RunResult :=
  runWithRetryGo p parse fetched u 0 (match p with | some q => q.attempts | none => 1) none

/-- A concrete parser used in evaluations: parse a response to its
status code. -/
def parse0 (r : JSResponse) : Outcome := .ok r.status

/-- A concrete deterministic random source (`Math.random() * 2 - 1`
drawn as 0). -/
def u0 : Nat → ℚ := fun _ => 0

/-- The retry policy of the spec scenario: attempts 3, base 150,
factor 2, jitter 0, default predicate. -/
def pol3 : RetryPolicy := ⟨3, some 150, some 2, some 0, none⟩

/-- A transport that fails with status 503 twice and then succeeds with
status 200. -/
def fr503 : Nat → Except JSError JSResponse :=
  fun n => if n < 2 then .ok ⟨503⟩ else .ok ⟨200⟩


/-! ## Signal composition (`combineSignals`, lines 77-89)

An `AbortSignal` is modelled by its state: `none` while live, `some r`
once aborted with reason `r`.  `controller.abort()` with no argument
(lines 79 and 83) installs the default `AbortError` reason, modelled by
`AbortReason.abortDefault`; every other reason is `tagged`. -/

/-- Reasons an abort signal can carry. -/
inductive AbortReason where
  | abortDefault
  | tagged (n : Nat)
deriving DecidableEq, Repr

/-- The composition loop of `combineSignals` (lines 80-87), also
returning the indices of the inputs whose `abort` listeners were
attached.  An input slot that is `none` models an `undefined` entry of
the array (skipped, line 81); `some none` is a live signal (listener
attached, line 86); `some (some r)` is an already-aborted signal: the
derived controller aborts with NO argument and the loop breaks
(lines 82-85), so the input reason `r` is discarded. -/
def combineLoop : List (Option (Option AbortReason)) → Nat → Option AbortReason × List Nat
  | [], _ => (none, [])
  | none :: rest, idx => combineLoop rest (idx + 1)
  | some none :: rest, idx =>
    let r := combineLoop rest (idx + 1)
    (r.1, idx :: r.2)
  | some (some _) :: _, _ => (some .abortDefault, [])

/-- `combineSignals` (lines 77-89): derived controller state and
attached listener indices after composition. -/
def combineSignals (sgs : List (Option (Option AbortReason))) : Option AbortReason × List Nat :=
  combineLoop sgs 0

/-- One input signal firing with reason `r` after composition: the
`onAbort` listener (line 79) runs only if input `j` is still attached
(`once: true` detaches it), and calls `controller.abort()` with no
argument, which is a no-op if the derived controller already fired and
otherwise installs the default reason — the input reason is ignored. -/
def signalFire (st : Option AbortReason × List Nat) (j : Nat) (_r : AbortReason) :
    Option AbortReason × List Nat :=
  if j ∈ st.2 then
    (match st.1 with
     | none => some AbortReason.abortDefault
     | some x => some x,
     st.2.erase j)
  else st

/-- Does some input arrive already aborted? -/
def hasAbortedInput (sgs : List (Option (Option AbortReason))) : Bool :=
  sgs.any fun s =>
    match s with
    | some (some _) => true
    | _ => false

/-! ## The client lifecycle (`createHttpClient`, lines 91-313)

The stateful part of the engine is modelled as a small-step transition
system.  A state carries the client's mutable data (lines 105-119): the
global `inFlight` counter, the wait `queue`, the `inFlightByKey`
registry (an association list with the `Map` replace-on-set and
delete-by-key semantics), and the bookkeeping of every call observed so
far.  One step is one synchronous run-to-completion block of the
JavaScript event loop:

* `Ev.submit c o` — `request()` is called for a fresh call id `c`
  (lines 196-308): it builds the task and runs `enqueue` (line 300),
  which either runs the task synchronously (line 130), rejects it
  (`drop` strategy, lines 132-135) or appends it to the queue
  (lines 137-139).
* `Ev.settle c out` — the promise of a running leader call `c` settles
  with outcome `out`: `resolveOuter`/`rejectOuter` fire (lines
  276-279), attached dedupe followers observe the settled outcome
  (lines 245-247), and the `finally` block runs (lines 281-286):
  `inFlight--`, unconditional `inFlightByKey.delete(key)`, one
  `dequeue()`.
* `Ev.finishFollower c` — the microtask of a dedupe follower whose
  leader has settled runs (lines 245-252): the follower resolves or
  rejects with the leader's outcome, then `inFlight--` and one
  `dequeue()` (lines 248-252).

The environment chooses settle outcomes freely, which over-approximates
every possible transport behaviour.  The ghost fields `started`,
`startedAt` and `clock` record whether and when a call actually started
`runWithRetry` (they have no effect on the dynamics). -/

/-- Queue strategies (line 3): `"fifo" | "lifo" | "drop"`. -/
inductive QueueStrategy where
  | fifo
  | lifo
  | drop
deriving DecidableEq, Repr

/-- The per-call options the lifecycle inspects (lines 36-44):
coordination `key`, `lastOneWins`, `dedupe`.  Keys are modelled as
natural numbers. -/
structure CallOpts where
  key : Option Nat
  lastOneWins : Bool
  dedupe : Bool
deriving DecidableEq, Repr

/-- Lifecycle phase of one call.  `running` is a call executing
`runWithRetry` (a physically executing attempt); `follower l` is a
dedupe-served call attached to leader `l`'s result promise;
`followerReady l out` is a follower whose leader has settled with `out`
but whose own microtask has not run yet; `dropped` is a call rejected
by the `drop` strategy. -/
inductive Phase where
  | queued
  | dropped
  | running
  | follower (l : Nat)
  | followerReady (l : Nat) (out : Outcome)
  | settled (out : Outcome)
deriving DecidableEq, Repr

/-- Per-call bookkeeping: the options it was submitted with, its
current phase, and the ghost start data (`started` is true once the
call has begun its own `runWithRetry`; `startedAt` is the value of the
ghost clock at that moment). -/
structure CallSt where
  opts : CallOpts
  phase : Phase
  started : Bool
  startedAt : Nat
deriving DecidableEq, Repr

/-- Client state: `inFlight` (line 106), `queue` (line 107),
`inFlightByKey` as `keyMap` (lines 110-119, the record holder is the
call id of the attempt that installed it), the call table, the list of
submitted call ids, and the ghost clock. -/
structure St where
  inFlight : ℤ
  queue : List Nat
  keyMap : List (Nat × Nat)
  calls : Nat → Option CallSt
  dom : List Nat
  clock : Nat

/-- Client configuration (lines 100-101): `maxInFlight` (0 means
unlimited) and the queue strategy (`fifo` default). -/
structure Cfg where
  maxInFlight : Nat
  strategy : QueueStrategy
deriving DecidableEq, Repr

/-- `Map.get` on the key registry. -/
def mapGet (m : List (Nat × Nat)) (k : Nat) : Option Nat :=
  match m with
  | [] => none
  | (k0, v) :: rest => if k0 = k then some v else mapGet rest k

/-- `Map.delete` on the key registry. -/
def mapDelete (m : List (Nat × Nat)) (k : Nat) : List (Nat × Nat) :=
  match m with
  | [] => []
  | (k0, v) :: rest => if k0 = k then mapDelete rest k else (k0, v) :: mapDelete rest k

/-- `Map.set` on the key registry: replaces any entry for `k`. -/
def mapSet (m : List (Nat × Nat)) (k v : Nat) : List (Nat × Nat) :=
  mapDelete m k ++ [(k, v)]

/-- The keys currently present in the registry. -/
def keysOf (m : List (Nat × Nat)) : List Nat := m.map Prod.fst

/-- Point update of the call table. -/
def setCall (f : Nat → Option CallSt) (c : Nat) (v : CallSt) : Nat → Option CallSt :=
  fun x => if x = c then some v else f x

/-- The `lastOneWins` block of `task.run` (lines 233-239): abort the
previous holder's controller (no effect on our state, cancellation
being cooperative) and delete its record. -/
def superKM (s : St) (o : CallOpts) : List (Nat × Nat) :=
  match o.key with
  | some k =>
    if o.lastOneWins && (mapGet s.keyMap k).isSome then mapDelete s.keyMap k else s.keyMap
  | none => s.keyMap

/-- The dedupe lookup of `task.run` (lines 242-244): with the `dedupe`
flag and a key, the active record for that key (consulted after the
`lastOneWins` block). -/
def dedupeTarget (km : List (Nat × Nat)) (o : CallOpts) : Option Nat :=
  match o.key with
  | some k => if o.dedupe then mapGet km k else none
  | none => none

/-- The tail of `task.run` for a non-deduped call (lines 257-296):
start `runWithRetry` (ghost-recorded by `started := true`,
`startedAt := clock`) and, when a key is present, install the
`KeyRecord` for this attempt (lines 288-296, `Map.set` replacing any
previous record). -/
def startLeader (s : St) (c : Nat) (o : CallOpts) : St :=
  let m :=
    match o.key with
    | some k => mapSet s.keyMap k c
    | none => s.keyMap
  ⟨s.inFlight, s.queue, m, setCall s.calls c ⟨o, .running, true, s.clock⟩, s.dom, s.clock + 1⟩

/-- `task.run` (lines 228-297): `inFlight++` (line 229), the
`lastOneWins` block, then either the dedupe attach (lines 242-254,
which returns without fetching) or the leader path. -/
def runTask (s : St) (c : Nat) (o : CallOpts) : St :=
  let s1 : St := ⟨s.inFlight + 1, s.queue, superKM s o, s.calls, s.dom, s.clock⟩
  match dedupeTarget s1.keyMap o with
  | some l =>
    ⟨s1.inFlight, s1.queue, s1.keyMap, setCall s1.calls c ⟨o, .follower l, false, 0⟩,
      s1.dom, s1.clock⟩
  | none => startLeader s1 c o

/-- `dequeue` (lines 121-126): return early when at capacity;
otherwise pop (tail for `lifo`, head otherwise) and run the task. -/
def popTask (g : Cfg) (q : List Nat) : Option (Nat × List Nat) :=
  match g.strategy with
  | .lifo =>
    match q.getLast? with
    | some t => some (t, q.dropLast)
    | none => none
  | _ =>
    match q with
    | t :: rest => some (t, rest)
    | [] => none

/-- `dequeue` (lines 121-126). -/
def dequeueStep (g : Cfg) (s : St) : St :=
  if 0 < g.maxInFlight ∧ (g.maxInFlight : ℤ) ≤ s.inFlight then s
  else
    match popTask g s.queue with
    | none => s
    | some (t, q) =>
      match s.calls t with
      | some cs => runTask ⟨s.inFlight, q, s.keyMap, s.calls, s.dom, s.clock⟩ t cs.opts
      | none => ⟨s.inFlight, q, s.keyMap, s.calls, s.dom, s.clock⟩

/-- `enqueue` (lines 128-141) acting on a freshly submitted call `c`:
run immediately when unlimited or below capacity (lines 129-130);
reject under the `drop` strategy (lines 132-135); otherwise append to
the wait queue (lines 137-139, both remaining strategies push). -/
def submitStep (g : Cfg) (s : St) (c : Nat) (o : CallOpts) : Option St :=
  match s.calls c with
  | some _ => none
  | none =>
    let s0 : St := ⟨s.inFlight, s.queue, s.keyMap, s.calls, s.dom ++ [c], s.clock⟩
    if g.maxInFlight = 0 ∨ s.inFlight < (g.maxInFlight : ℤ) then
      some (runTask s0 c o)
    else if g.strategy = .drop then
      some ⟨s0.inFlight, s0.queue, s0.keyMap, setCall s0.calls c ⟨o, .dropped, false, 0⟩,
        s0.dom, s0.clock⟩
    else
      some ⟨s0.inFlight, s0.queue ++ [c], s0.keyMap, setCall s0.calls c ⟨o, .queued, false, 0⟩,
        s0.dom, s0.clock⟩

/-- When leader `L` settles, every follower attached to `L`'s promise
observes the outcome (its own microtask still pending). -/
def promoteFollowers (f : Nat → Option CallSt) (L : Nat) (out : Outcome) :
    Nat → Option CallSt :=
  fun x =>
    match f x with
    | some cs =>
      match cs.phase with
      | .follower l =>
        if l = L then some ⟨cs.opts, .followerReady l out, cs.started, cs.startedAt⟩
        else some cs
      | _ => some cs
    | none => none

/-- The `finally` body's key cleanup (line 284): `inFlightByKey.delete(key)`
is UNCONDITIONAL — it does not check that the settling attempt still
owns the record. -/
def settleKM (s : St) (cs : CallSt) : List (Nat × Nat) :=
  match cs.opts.key with
  | some k => mapDelete s.keyMap k
  | none => s.keyMap

/-- The synchronous settlement block of a running leader `c` minus the
final `dequeue`: resolve/reject the outer promise (lines 276-279),
notify followers, then the `finally` body (lines 281-286):
`inFlight--` and — unconditionally — `inFlightByKey.delete(key)`. -/
def settleCore (s : St) (c : Nat) (out : Outcome) : St :=
  match s.calls c with
  | none => s
  | some cs =>
    ⟨s.inFlight - 1, s.queue, settleKM s cs,
      promoteFollowers (setCall s.calls c ⟨cs.opts, .settled out, cs.started, cs.startedAt⟩) c out,
      s.dom, s.clock⟩

/-- The settle event of a running leader (lines 275-286), ending with
one `dequeue()` (line 285). -/
def settleStep (g : Cfg) (s : St) (c : Nat) (out : Outcome) : Option St :=
  match s.calls c with
  | some cs => if cs.phase = .running then some (dequeueStep g (settleCore s c out)) else none
  | none => none

/-- The microtask of a follower whose leader has settled (lines
245-252): resolve/reject with the leader's outcome, `inFlight--`, one
`dequeue()`. -/
def followerFinishStep (g : Cfg) (s : St) (c : Nat) : Option St :=
  match s.calls c with
  | none => none
  | some cs =>
    match cs.phase with
    | .followerReady _ out =>
      some (dequeueStep g
        ⟨s.inFlight - 1, s.queue, s.keyMap,
          setCall s.calls c ⟨cs.opts, .settled out, cs.started, cs.startedAt⟩, s.dom, s.clock⟩)
    | _ => none

/-- Events of the transition system. -/
inductive Ev where
  | submit (c : Nat) (o : CallOpts)
  | settle (c : Nat) (out : Outcome)
  | finishFollower (c : Nat)

/-- One step of the client; `none` when the event is not enabled. -/
def stepFn (g : Cfg) (s : St) : Ev → Option St
  | .submit c o => submitStep g s c o
  | .settle c out => settleStep g s c out
  | .finishFollower c => followerFinishStep g s c

/-- The state of a freshly created client (lines 100-119). -/
def initSt : St := ⟨0, [], [], fun _ => none, [], 0⟩

/-- States reachable from a fresh client. -/
inductive Reachable (g : Cfg) : St → Prop where
  | refl : Reachable g initSt
  | tail {s e s1} : Reachable g s → stepFn g s e = some s1 → Reachable g s1

/-- Run a list of events from a state. -/
def traceFrom (g : Cfg) : St → List Ev → Option St
  | s, [] => some s
  | s, e :: evs =>
    match stepFn g s e with
    | some s1 => traceFrom g s1 evs
    | none => none

/-- Run a list of events from the fresh client. -/
def traceRun (g : Cfg) (evs : List Ev) : Option St := traceFrom g initSt evs

lemma reachable_traceFrom {g : Cfg} :
    ∀ {evs : List Ev} {s s1 : St}, Reachable g s → traceFrom g s evs = some s1 → Reachable g s1 := by
  intro evs
  induction evs with
  | nil => intro s s1 hr h; cases h; exact hr
  | cons e evs ih =>
    intro s s1 hr h
    rw [traceFrom] at h
    cases hstep : stepFn g s e with
    | none => rw [hstep] at h; cases h
    | some s2 =>
      rw [hstep] at h
      exact ih (Reachable.tail hr hstep) h

lemma reachable_traceRun {g : Cfg} {evs : List Ev} {s : St}
    (h : traceRun g evs = some s) : Reachable g s :=
  reachable_traceFrom Reachable.refl h

/-- A client with unlimited capacity and the default `fifo` strategy. -/
def cfgU : Cfg := ⟨0, .fifo⟩

/-- Options: key 7, no flags. -/
def oKey7 : CallOpts := ⟨some 7, false, false⟩

/-- Options: key 7 with `lastOneWins` (supersede). -/
def oKey7W : CallOpts := ⟨some 7, true, false⟩

/-- Options: key 7 with `dedupe`. -/
def oKey7D : CallOpts := ⟨some 7, false, true⟩

/-! ## Counting active calls -/

/-- Phases that hold an `inFlight` slot: a running leader, or a dedupe
follower that has incremented the counter at `run` time (line 229) and
releases it only in its own settlement microtask (line 250). -/
def phaseActive : Phase → Bool
  | .running => true
  | .follower _ => true
  | .followerReady _ _ => true
  | _ => false

/-- Indicator of an active call. -/
def actInd (f : Nat → Option CallSt) (c : Nat) : ℤ :=
  match f c with
  | some cs => if phaseActive cs.phase then 1 else 0
  | none => 0

/-- Indicator of a physically executing call. -/
def runInd (f : Nat → Option CallSt) (c : Nat) : ℤ :=
  match f c with
  | some cs => if cs.phase = .running then 1 else 0
  | none => 0

/-- Sum of an integer-valued function over a list of call ids. -/
def sumOver (l : List Nat) (f : Nat → ℤ) : ℤ :=
  match l with
  | [] => 0
  | x :: xs => f x + sumOver xs f

/-- Number of slot-holding calls. -/
def countActiveZ (s : St) : ℤ := sumOver s.dom (actInd s.calls)

/-- Number of physically executing calls. -/
def countRunningZ (s : St) : ℤ := sumOver s.dom (runInd s.calls)

lemma sumOver_congr {l : List Nat} {f g : Nat → ℤ} (h : ∀ x ∈ l, f x = g x) :
    sumOver l f = sumOver l g := by
  induction l with
  | nil => rfl
  | cons x xs ih =>
    rw [sumOver, sumOver, h x (by simp), ih (fun y hy => h y (by simp [hy]))]

lemma sumOver_append (l1 l2 : List Nat) (f : Nat → ℤ) :
    sumOver (l1 ++ l2) f = sumOver l1 f + sumOver l2 f := by
  induction l1 with
  | nil => simp [sumOver]
  | cons x xs ih => simp [sumOver, ih]; ring

lemma sumOver_update {l : List Nat} {f g : Nat → ℤ} {c : Nat} (hc : c ∈ l) (hn : l.Nodup)
    (h : ∀ x, x ≠ c → f x = g x) : sumOver l g = sumOver l f + (g c - f c) := by
  induction l with
  | nil => cases hc
  | cons x xs ih =>
    rw [List.nodup_cons] at hn
    rcases List.mem_cons.mp hc with rfl | hmem
    · have : sumOver xs g = sumOver xs f := by
        apply sumOver_congr
        intro y hy
        exact (h y (fun hxy => hn.1 (hxy ▸ hy))).symm
      rw [sumOver, sumOver, this]; ring
    · rw [sumOver, sumOver, ih hmem hn.2, h x (fun hxc => hn.1 (hxc ▸ hmem))]; ring

lemma sumOver_nonneg {l : List Nat} {f : Nat → ℤ} (h : ∀ x ∈ l, 0 ≤ f x) :
    0 ≤ sumOver l f := by
  induction l with
  | nil => simp [sumOver]
  | cons x xs ih =>
    rw [sumOver]
    have := h x (by simp)
    have := ih (fun y hy => h y (by simp [hy]))
    omega

lemma sumOver_mono {l : List Nat} {f g : Nat → ℤ} (h : ∀ x ∈ l, f x ≤ g x) :
    sumOver l f ≤ sumOver l g := by
  induction l with
  | nil => simp [sumOver]
  | cons x xs ih =>
    rw [sumOver, sumOver]
    have := h x (by simp)
    have := ih (fun y hy => h y (by simp [hy]))
    omega

/-! ## Key-registry lemmas -/


lemma keysOf_nil : keysOf [] = [] := rfl

lemma keysOf_cons (p : Nat × Nat) (rest : List (Nat × Nat)) :
    keysOf (p :: rest) = p.1 :: keysOf rest := rfl

lemma mapGet_delete (m : List (Nat × Nat)) (k k1 : Nat) :
    mapGet (mapDelete m k) k1 = if k1 = k then none else mapGet m k1 := by
  induction m with
  | nil => simp [mapGet, mapDelete]
  | cons p rest ih =>
    obtain ⟨k0, v⟩ := p
    rw [mapDelete]
    by_cases h0 : k0 = k
    · rw [if_pos h0, ih]
      by_cases h1 : k1 = k
      · rw [if_pos h1, if_pos h1]
      · rw [if_neg h1, if_neg h1, mapGet, if_neg (by omega)]
    · rw [if_neg h0, mapGet, mapGet]
      by_cases h1 : k0 = k1
      · rw [if_pos h1, if_pos h1, if_neg (by omega)]
      · rw [if_neg h1, if_neg h1, ih]

lemma mapGet_append_none {m1 m2 : List (Nat × Nat)} {k : Nat} (h : mapGet m1 k = none) :
    mapGet (m1 ++ m2) k = mapGet m2 k := by
  induction m1 with
  | nil => simp [mapGet]
  | cons p rest ih =>
    obtain ⟨k0, v⟩ := p
    rw [mapGet] at h
    by_cases h0 : k0 = k
    · rw [if_pos h0] at h; cases h
    · rw [if_neg h0] at h
      rw [List.cons_append, mapGet, if_neg h0]
      exact ih h

lemma mapGet_append_some {m1 m2 : List (Nat × Nat)} {k : Nat} {v : Nat}
    (h : mapGet m1 k = some v) : mapGet (m1 ++ m2) k = some v := by
  induction m1 with
  | nil => rw [mapGet] at h; cases h
  | cons p rest ih =>
    obtain ⟨k0, w⟩ := p
    rw [mapGet] at h
    rw [List.cons_append, mapGet]
    by_cases h0 : k0 = k
    · rw [if_pos h0] at h ⊢; exact h
    · rw [if_neg h0] at h ⊢; exact ih h

lemma mapGet_set (m : List (Nat × Nat)) (k v k1 : Nat) :
    mapGet (mapSet m k v) k1 = if k1 = k then some v else mapGet m k1 := by
  rw [mapSet]
  by_cases h : k1 = k
  · subst h
    rw [mapGet_append_none (by rw [mapGet_delete]; simp), if_pos rfl, mapGet, if_pos rfl]
  · rw [if_neg h]
    cases hg : mapGet (mapDelete m k) k1 with
    | none =>
      have hg2 : mapGet m k1 = none := by rw [mapGet_delete, if_neg h] at hg; exact hg
      rw [mapGet_append_none hg, mapGet, if_neg (by omega), mapGet, hg2]
    | some w =>
      rw [mapGet_delete, if_neg h] at hg
      rw [mapGet_append_some (by rw [mapGet_delete, if_neg h]; exact hg), hg]

lemma keysOf_delete_sub (m : List (Nat × Nat)) (k : Nat) :
    ∀ x, x ∈ keysOf (mapDelete m k) → x ∈ keysOf m ∧ x ≠ k := by
  induction m with
  | nil => intro x hx; rw [mapDelete, keysOf_nil] at hx; cases hx
  | cons p rest ih =>
    obtain ⟨k0, v⟩ := p
    intro x hx
    rw [mapDelete] at hx
    by_cases h0 : k0 = k
    · rw [if_pos h0] at hx
      obtain ⟨hm, hne⟩ := ih x hx
      exact ⟨by rw [keysOf_cons]; exact List.mem_cons_of_mem _ hm, hne⟩
    · rw [if_neg h0, keysOf_cons] at hx
      rcases List.mem_cons.mp hx with rfl | hx
      · exact ⟨by rw [keysOf_cons]; exact List.mem_cons_self _ _, h0⟩
      · obtain ⟨hm, hne⟩ := ih x hx
        exact ⟨by rw [keysOf_cons]; exact List.mem_cons_of_mem _ hm, hne⟩

lemma keysOf_delete_nodup {m : List (Nat × Nat)} (h : (keysOf m).Nodup) (k : Nat) :
    (keysOf (mapDelete m k)).Nodup := by
  induction m with
  | nil => rw [mapDelete, keysOf_nil]; exact List.nodup_nil
  | cons p rest ih =>
    obtain ⟨k0, v⟩ := p
    rw [keysOf_cons, List.nodup_cons] at h
    rw [mapDelete]
    by_cases h0 : k0 = k
    · rw [if_pos h0]; exact ih h.2
    · rw [if_neg h0, keysOf_cons, List.nodup_cons]
      exact ⟨fun hmem => h.1 ((keysOf_delete_sub rest k k0 hmem).1), ih h.2⟩

lemma keysOf_append (m1 m2 : List (Nat × Nat)) :
    keysOf (m1 ++ m2) = keysOf m1 ++ keysOf m2 := by
  rw [keysOf, keysOf, keysOf, List.map_append]

lemma keysOf_set_nodup {m : List (Nat × Nat)} (h : (keysOf m).Nodup) (k v : Nat) :
    (keysOf (mapSet m k v)).Nodup := by
  rw [mapSet, keysOf_append]
  rw [List.nodup_append]
  refine ⟨keysOf_delete_nodup h k, List.nodup_singleton k, ?_⟩
  intro x hx
  simp only [keysOf_cons, keysOf_nil, List.mem_singleton]
  intro hxk
  exact ((keysOf_delete_sub m k x hx).2) hxk

/-! ## The client invariant -/

lemma setCall_self (f : Nat → Option CallSt) (c : Nat) (v : CallSt) :
    setCall f c v c = some v := by simp [setCall]

lemma setCall_ne (f : Nat → Option CallSt) (c : Nat) (v : CallSt) (x : Nat) (h : x ≠ c) :
    setCall f c v x = f x := by simp [setCall, h]

/-- Every key record belongs to a running, started attempt whose
options carry that key, and that attempt is the most recently started
among the started attempts for the key. -/
def OwnerInv (s : St) : Prop :=
  ∀ k c, mapGet s.keyMap k = some c →
    ∃ cs, s.calls c = some cs ∧ cs.phase = Phase.running ∧ cs.opts.key = some k ∧
      cs.started = true ∧
      ∀ d ds, s.calls d = some ds → ds.opts.key = some k → ds.started = true →
        ds.startedAt ≤ cs.startedAt

/-- Every follower is unstarted and attached to a running leader. -/
def FollowerInv (s : St) : Prop :=
  ∀ c cs l, s.calls c = some cs → cs.phase = Phase.follower l →
    cs.started = false ∧ ∃ ls, s.calls l = some ls ∧ ls.phase = Phase.running

/-- Every notified follower is unstarted and its leader has settled
with exactly the notified outcome. -/
def ReadyInv (s : St) : Prop :=
  ∀ c cs l out, s.calls c = some cs → cs.phase = Phase.followerReady l out →
    cs.started = false ∧ ∃ ls, s.calls l = some ls ∧ ls.phase = Phase.settled out

/-- The inductive invariant of the client state. -/
structure ClientInv (g : Cfg) (s : St) : Prop where
  domCalls : ∀ x, x ∈ s.dom ↔ (s.calls x).isSome = true
  domNodup : s.dom.Nodup
  queueNodup : s.queue.Nodup
  queueQueued : ∀ x ∈ s.queue,
    ∃ cs, s.calls x = some cs ∧ cs.phase = Phase.queued ∧ cs.started = false
  count : s.inFlight = countActiveZ s
  cap : 0 < g.maxInFlight → s.inFlight ≤ (g.maxInFlight : ℤ)
  keysNodup : (keysOf s.keyMap).Nodup
  owner : OwnerInv s
  clockBound : ∀ x cs, s.calls x = some cs → cs.started = true → cs.startedAt < s.clock
  followerLeader : FollowerInv s
  readyLeader : ReadyInv s

/-- Precondition under which `task.run` is invoked for call `c` with
options `o`: either a fresh submission (registered in `dom`, no call
record yet) or a dequeued task (recorded as queued, already out of the
queue). -/
structure PreRun (g : Cfg) (s : St) (c : Nat) (o : CallOpts) : Prop where
  mem : c ∈ s.dom
  domNodup : s.dom.Nodup
  callsC : s.calls c = none ∨ ∃ t0, s.calls c = some ⟨o, Phase.queued, false, t0⟩
  domCallsOther : ∀ x, x ≠ c → (x ∈ s.dom ↔ (s.calls x).isSome = true)
  queueNodup : s.queue.Nodup
  notInQueue : c ∉ s.queue
  queueQueued : ∀ x ∈ s.queue,
    ∃ cs, s.calls x = some cs ∧ cs.phase = Phase.queued ∧ cs.started = false
  count : s.inFlight = countActiveZ s
  capRoom : 0 < g.maxInFlight → s.inFlight < (g.maxInFlight : ℤ)
  keysNodup : (keysOf s.keyMap).Nodup
  owner : OwnerInv s
  clockBound : ∀ x cs, s.calls x = some cs → cs.started = true → cs.startedAt < s.clock
  followerLeader : FollowerInv s
  readyLeader : ReadyInv s

lemma preRun_ne_c {g : Cfg} {s : St} {c : Nat} {o : CallOpts} (pre : PreRun g s c o)
    {x : Nat} {xs : CallSt} (hx : s.calls x = some xs) (hph : xs.phase ≠ Phase.queued) :
    x ≠ c := by
  intro he
  subst he
  rcases pre.callsC with h | ⟨t0, h⟩
  · rw [h] at hx; cases hx
  · rw [h] at hx
    cases hx
    exact hph rfl

lemma preRun_actInd_zero {g : Cfg} {s : St} {c : Nat} {o : CallOpts} (pre : PreRun g s c o) :
    actInd s.calls c = 0 := by
  rcases pre.callsC with h | ⟨t0, h⟩ <;> simp [actInd, h, phaseActive]

lemma actInd_setCall_ne (f : Nat → Option CallSt) (c : Nat) (v : CallSt) (x : Nat)
    (h : x ≠ c) : actInd (setCall f c v) x = actInd f x := by
  rw [actInd, setCall_ne f c v x h, actInd]

lemma sum_actInd_setCall {dm : List Nat} {f : Nat → Option CallSt} {c : Nat} {v : CallSt}
    (hmem : c ∈ dm) (hn : dm.Nodup) :
    sumOver dm (actInd (setCall f c v)) =
      sumOver dm (actInd f) + ((if phaseActive v.phase then 1 else 0) - actInd f c) := by
  have h := @sumOver_update dm (actInd f) (actInd (setCall f c v)) c hmem hn
    (fun x hx => (actInd_setCall_ne f c v x hx).symm)
  rw [h, actInd, setCall_self]

lemma dedupeTarget_some {km : List (Nat × Nat)} {o : CallOpts} {l : Nat}
    (h : dedupeTarget km o = some l) :
    ∃ k, o.key = some k ∧ o.dedupe = true ∧ mapGet km k = some l := by
  rw [dedupeTarget] at h
  cases hk : o.key with
  | none => rw [hk] at h; cases h
  | some k =>
    rw [hk] at h
    cases hd : o.dedupe
    · rw [hd] at h; simp at h
    · rw [hd] at h; simp at h; exact ⟨k, rfl, rfl, h⟩

lemma superKM_get_some {s : St} {o : CallOpts} {k1 c1 : Nat}
    (h : mapGet (superKM s o) k1 = some c1) : mapGet s.keyMap k1 = some c1 := by
  cases hk : o.key with
  | none => rw [superKM, hk] at h; exact h
  | some k =>
    simp only [superKM, hk] at h
    by_cases hc : (o.lastOneWins && (mapGet s.keyMap k).isSome) = true
    · rw [if_pos hc, mapGet_delete] at h
      by_cases h1 : k1 = k
      · rw [if_pos h1] at h; cases h
      · rw [if_neg h1] at h; exact h
    · rw [if_neg hc] at h; exact h

lemma superKM_nodup {s : St} {o : CallOpts} (h : (keysOf s.keyMap).Nodup) :
    (keysOf (superKM s o)).Nodup := by
  cases hk : o.key with
  | none => rw [superKM, hk]; exact h
  | some k =>
    simp only [superKM, hk]
    by_cases hc : (o.lastOneWins && (mapGet s.keyMap k).isSome) = true
    · rw [if_pos hc]; exact keysOf_delete_nodup h k
    · rw [if_neg hc]; exact h

/-- `task.run` results in exactly one of: a dedupe attach, a keyed
leader start, or an unkeyed leader start. -/
lemma runTask_cases (s : St) (c : Nat) (o : CallOpts) :
    (∃ l, dedupeTarget (superKM s o) o = some l ∧
      runTask s c o = ⟨s.inFlight + 1, s.queue, superKM s o,
        setCall s.calls c ⟨o, Phase.follower l, false, 0⟩, s.dom, s.clock⟩) ∨
    (∃ k, o.key = some k ∧ dedupeTarget (superKM s o) o = none ∧
      runTask s c o = ⟨s.inFlight + 1, s.queue, mapSet (superKM s o) k c,
        setCall s.calls c ⟨o, Phase.running, true, s.clock⟩, s.dom, s.clock + 1⟩) ∨
    (o.key = none ∧ dedupeTarget (superKM s o) o = none ∧
      runTask s c o = ⟨s.inFlight + 1, s.queue, superKM s o,
        setCall s.calls c ⟨o, Phase.running, true, s.clock⟩, s.dom, s.clock + 1⟩) := by
  cases hd : dedupeTarget (superKM s o) o with
  | some l =>
    left
    exact ⟨l, rfl, by rw [runTask]; simp only [hd]⟩
  | none =>
    right
    cases hk : o.key with
    | some k =>
      left
      refine ⟨k, rfl, rfl, ?_⟩
      rw [runTask]
      simp only [hd, startLeader, hk]
    | none =>
      right
      refine ⟨rfl, rfl, ?_⟩
      rw [runTask]
      simp only [hd, startLeader, hk]


/-- Auxiliary: the common invariant fields for a leader start. -/
lemma inv_leader_aux {g : Cfg} {s : St} {c : Nat} {o : CallOpts} (pre : PreRun g s c o)
    (km : List (Nat × Nat)) (hknod : (keysOf km).Nodup)
    (howner : OwnerInv ⟨s.inFlight + 1, s.queue, km,
      setCall s.calls c ⟨o, Phase.running, true, s.clock⟩, s.dom, s.clock + 1⟩) :
    ClientInv g ⟨s.inFlight + 1, s.queue, km,
      setCall s.calls c ⟨o, Phase.running, true, s.clock⟩, s.dom, s.clock + 1⟩ := by
  refine ⟨?_, pre.domNodup, pre.queueNodup, ?_, ?_, ?_, hknod, howner, ?_, ?_, ?_⟩
  · intro x
    dsimp only
    by_cases hx : x = c
    · subst hx
      simp only [setCall_self, Option.isSome_some]
      simp [pre.mem]
    · rw [setCall_ne _ _ _ _ hx]
      exact pre.domCallsOther x hx
  · intro x hxq
    dsimp only at hxq ⊢
    have hxc : x ≠ c := fun he => pre.notInQueue (he ▸ hxq)
    rw [setCall_ne _ _ _ _ hxc]
    exact pre.queueQueued x hxq
  · have hstep := @sum_actInd_setCall s.dom s.calls c ⟨o, Phase.running, true, s.clock⟩
      pre.mem pre.domNodup
    have hc : s.inFlight = sumOver s.dom (actInd s.calls) := pre.count
    show s.inFlight + 1 = sumOver s.dom (actInd (setCall s.calls c ⟨o, Phase.running, true, s.clock⟩))
    rw [hstep, preRun_actInd_zero pre, ← hc]
    simp [phaseActive]
  · intro hcap
    have := pre.capRoom hcap
    show s.inFlight + 1 ≤ (g.maxInFlight : ℤ)
    omega
  · intro x cs hx hst
    dsimp only at hx ⊢
    by_cases hxc : x = c
    · subst hxc
      rw [setCall_self] at hx
      injection hx with hx2
      subst hx2
      simp
    · rw [setCall_ne _ _ _ _ hxc] at hx
      have := pre.clockBound x cs hx hst
      omega
  · intro x cs lx hx hph
    dsimp only at hx ⊢
    by_cases hxc : x = c
    · subst hxc
      rw [setCall_self] at hx
      injection hx with hx2
      subst hx2
      simp at hph
    · rw [setCall_ne _ _ _ _ hxc] at hx
      obtain ⟨hstf, ls2, hls2, hrun2⟩ := pre.followerLeader x cs lx hx hph
      have hlx : lx ≠ c := preRun_ne_c pre hls2 (by simp [hrun2])
      exact ⟨hstf, ls2, by rw [setCall_ne _ _ _ _ hlx]; exact hls2, hrun2⟩
  · intro x cs lx out hx hph
    dsimp only at hx ⊢
    by_cases hxc : x = c
    · subst hxc
      rw [setCall_self] at hx
      injection hx with hx2
      subst hx2
      simp at hph
    · rw [setCall_ne _ _ _ _ hxc] at hx
      obtain ⟨hstf, ls2, hls2, hset2⟩ := pre.readyLeader x cs lx out hx hph
      have hlx : lx ≠ c := preRun_ne_c pre hls2 (by simp [hset2])
      exact ⟨hstf, ls2, by rw [setCall_ne _ _ _ _ hlx]; exact hls2, hset2⟩

/-- `task.run` preserves the client invariant. -/
lemma inv_runTask {g : Cfg} {s : St} {c : Nat} {o : CallOpts} (pre : PreRun g s c o) :
    ClientInv g (runTask s c o) := by
  rcases runTask_cases s c o with ⟨l, hded, heq⟩ | ⟨k, hk, hded, heq⟩ | ⟨hk, hded, heq⟩
  · -- dedupe attach: the call becomes a follower of the record holder
    obtain ⟨k, hko, hdo, hgetl⟩ := dedupeTarget_some hded
    have hgetl0 : mapGet s.keyMap k = some l := superKM_get_some hgetl
    obtain ⟨ls, hlcall, hlrun, hlkey, hlstart, hlmax⟩ := pre.owner k l hgetl0
    have hlc : l ≠ c := preRun_ne_c pre hlcall (by simp [hlrun])
    rw [heq]
    refine ⟨?_, pre.domNodup, pre.queueNodup, ?_, ?_, ?_, superKM_nodup pre.keysNodup,
      ?_, ?_, ?_, ?_⟩
    · intro x
      dsimp only
      by_cases hx : x = c
      · subst hx
        simp only [setCall_self, Option.isSome_some]
        simp [pre.mem]
      · rw [setCall_ne _ _ _ _ hx]
        exact pre.domCallsOther x hx
    · intro x hxq
      dsimp only at hxq ⊢
      have hxc : x ≠ c := fun he => pre.notInQueue (he ▸ hxq)
      rw [setCall_ne _ _ _ _ hxc]
      exact pre.queueQueued x hxq
    · have hstep := @sum_actInd_setCall s.dom s.calls c ⟨o, Phase.follower l, false, 0⟩
        pre.mem pre.domNodup
      have hc : s.inFlight = sumOver s.dom (actInd s.calls) := pre.count
      show s.inFlight + 1 = sumOver s.dom (actInd (setCall s.calls c ⟨o, Phase.follower l, false, 0⟩))
      rw [hstep, preRun_actInd_zero pre, ← hc]
      simp [phaseActive]
    · intro hcap
      have := pre.capRoom hcap
      show s.inFlight + 1 ≤ (g.maxInFlight : ℤ)
      omega
    · intro k1 c1 hget
      dsimp only at hget ⊢
      have hget0 := superKM_get_some hget
      obtain ⟨cs1, hc1, hrun1, hkey1, hst1, hmax1⟩ := pre.owner k1 c1 hget0
      have hc1c : c1 ≠ c := preRun_ne_c pre hc1 (by simp [hrun1])
      refine ⟨cs1, by rw [setCall_ne _ _ _ _ hc1c]; exact hc1, hrun1, hkey1, hst1, ?_⟩
      intro d ds hd hdk hdst
      by_cases hdc : d = c
      · subst hdc
        rw [setCall_self] at hd
        injection hd with hd2
        subst hd2
        simp at hdst
      · rw [setCall_ne _ _ _ _ hdc] at hd
        exact hmax1 d ds hd hdk hdst
    · intro x cs hx hst
      dsimp only at hx ⊢
      by_cases hxc : x = c
      · subst hxc
        rw [setCall_self] at hx
        injection hx with hx2
        subst hx2
        simp at hst
      · rw [setCall_ne _ _ _ _ hxc] at hx
        exact pre.clockBound x cs hx hst
    · intro x cs lx hx hph
      dsimp only at hx ⊢
      by_cases hxc : x = c
      · subst hxc
        rw [setCall_self] at hx
        injection hx with hx2
        subst hx2
        simp only [] at hph
        injection hph with hl2
        subst hl2
        refine ⟨rfl, ls, ?_, hlrun⟩
        rw [setCall_ne _ _ _ _ hlc]
        exact hlcall
      · rw [setCall_ne _ _ _ _ hxc] at hx
        obtain ⟨hstf, ls2, hls2, hrun2⟩ := pre.followerLeader x cs lx hx hph
        have hlx : lx ≠ c := preRun_ne_c pre hls2 (by simp [hrun2])
        exact ⟨hstf, ls2, by rw [setCall_ne _ _ _ _ hlx]; exact hls2, hrun2⟩
    · intro x cs lx out hx hph
      dsimp only at hx ⊢
      by_cases hxc : x = c
      · subst hxc
        rw [setCall_self] at hx
        injection hx with hx2
        subst hx2
        simp at hph
      · rw [setCall_ne _ _ _ _ hxc] at hx
        obtain ⟨hstf, ls2, hls2, hset2⟩ := pre.readyLeader x cs lx out hx hph
        have hlx : lx ≠ c := preRun_ne_c pre hls2 (by simp [hset2])
        exact ⟨hstf, ls2, by rw [setCall_ne _ _ _ _ hlx]; exact hls2, hset2⟩
  · -- keyed leader start
    rw [heq]
    refine inv_leader_aux pre _ (keysOf_set_nodup (superKM_nodup pre.keysNodup) k c) ?_
    intro k1 c1 hget
    dsimp only at hget ⊢
    rw [mapGet_set] at hget
    by_cases h1 : k1 = k
    · rw [if_pos h1] at hget
      injection hget with hc1
      subst hc1
      subst h1
      refine ⟨⟨o, Phase.running, true, s.clock⟩, setCall_self _ _ _, rfl, hk, rfl, ?_⟩
      intro d ds hd hdk hdst
      by_cases hdc : d = c
      · subst hdc
        rw [setCall_self] at hd
        injection hd with hd2
        subst hd2
        simp
      · rw [setCall_ne _ _ _ _ hdc] at hd
        have := pre.clockBound d ds hd hdst
        dsimp only
        omega
    · rw [if_neg h1] at hget
      have hget0 := superKM_get_some hget
      obtain ⟨cs1, hc1, hrun1, hkey1, hst1, hmax1⟩ := pre.owner k1 c1 hget0
      have hc1c : c1 ≠ c := preRun_ne_c pre hc1 (by simp [hrun1])
      refine ⟨cs1, by rw [setCall_ne _ _ _ _ hc1c]; exact hc1, hrun1, hkey1, hst1, ?_⟩
      intro d ds hd hdk hdst
      by_cases hdc : d = c
      · subst hdc
        rw [setCall_self] at hd
        injection hd with hd2
        subst hd2
        dsimp only at hdk
        rw [hk] at hdk
        injection hdk with hkk
        exact absurd hkk.symm h1
      · rw [setCall_ne _ _ _ _ hdc] at hd
        exact hmax1 d ds hd hdk hdst
  · -- unkeyed leader start
    rw [heq]
    refine inv_leader_aux pre _ (superKM_nodup pre.keysNodup) ?_
    intro k1 c1 hget
    dsimp only at hget ⊢
    have hget0 := superKM_get_some hget
    obtain ⟨cs1, hc1, hrun1, hkey1, hst1, hmax1⟩ := pre.owner k1 c1 hget0
    have hc1c : c1 ≠ c := preRun_ne_c pre hc1 (by simp [hrun1])
    refine ⟨cs1, by rw [setCall_ne _ _ _ _ hc1c]; exact hc1, hrun1, hkey1, hst1, ?_⟩
    intro d ds hd hdk hdst
    by_cases hdc : d = c
    · subst hdc
      rw [setCall_self] at hd
      injection hd with hd2
      subst hd2
      dsimp only at hdk
      rw [hk] at hdk
      cases hdk
    · rw [setCall_ne _ _ _ _ hdc] at hd
      exact hmax1 d ds hd hdk hdst

lemma getLast?_decomp : ∀ {q : List Nat} {t : Nat}, q.getLast? = some t → q = q.dropLast ++ [t]
  | [], t => by intro h; cases h
  | [a], t => by
    intro h
    simp [List.getLast?] at h
    subst h
    rfl
  | a :: b :: rest, t => by
    intro h
    rw [List.getLast?_cons_cons] at h
    have ih := getLast?_decomp h
    calc a :: b :: rest = a :: ((b :: rest).dropLast ++ [t]) := by rw [← ih]
    _ = (a :: b :: rest).dropLast ++ [t] := by simp

/-- `dequeue`'s pop takes either the head (`fifo`/`drop`) or the last
element (`lifo`) of the queue. -/
lemma popTask_spec {g : Cfg} {q : List Nat} {t : Nat} {q1 : List Nat}
    (h : popTask g q = some (t, q1)) : q = t :: q1 ∨ q = q1 ++ [t] := by
  rw [popTask.eq_def] at h
  cases hs : g.strategy with
  | lifo =>
    rw [hs] at h
    cases hl : q.getLast? with
    | none => rw [hl] at h; cases h
    | some t2 =>
      rw [hl] at h
      injection h with h2
      injection h2 with ha hb
      subst ha
      right
      rw [← hb]
      exact getLast?_decomp hl
  | fifo =>
    rw [hs] at h
    cases q with
    | nil => cases h
    | cons a rest =>
      injection h with h2
      injection h2 with ha hb
      subst ha; subst hb
      left; rfl
  | drop =>
    rw [hs] at h
    cases q with
    | nil => cases h
    | cons a rest =>
      injection h with h2
      injection h2 with ha hb
      subst ha; subst hb
      left; rfl

lemma popTask_mem {g : Cfg} {q : List Nat} {t : Nat} {q1 : List Nat}
    (h : popTask g q = some (t, q1)) : t ∈ q := by
  rcases popTask_spec h with h1 | h1 <;> simp [h1]

lemma popTask_sub {g : Cfg} {q : List Nat} {t : Nat} {q1 : List Nat}
    (h : popTask g q = some (t, q1)) : ∀ x ∈ q1, x ∈ q := by
  intro x hx
  rcases popTask_spec h with h1 | h1 <;> simp [h1, hx]

lemma popTask_nodup {g : Cfg} {q : List Nat} {t : Nat} {q1 : List Nat}
    (h : popTask g q = some (t, q1)) (hn : q.Nodup) : q1.Nodup ∧ t ∉ q1 := by
  rcases popTask_spec h with h1 | h1
  · rw [h1, List.nodup_cons] at hn
    exact ⟨hn.2, hn.1⟩
  · rw [h1, List.nodup_append] at hn
    refine ⟨hn.1, fun hmem => ?_⟩
    exact hn.2.2 hmem (by simp)

/-- `dequeue` preserves the client invariant. -/
lemma inv_dequeue {g : Cfg} {s : St} (inv : ClientInv g s) : ClientInv g (dequeueStep g s) := by
  rw [dequeueStep]
  by_cases hg : 0 < g.maxInFlight ∧ (g.maxInFlight : ℤ) ≤ s.inFlight
  · rw [if_pos hg]; exact inv
  · rw [if_neg hg]
    cases hp : popTask g s.queue with
    | none => exact inv
    | some tq =>
      obtain ⟨t, q1⟩ := tq
      have htmem : t ∈ s.queue := popTask_mem hp
      obtain ⟨cs, hcs, hq, hstf⟩ := inv.queueQueued t htmem
      obtain ⟨hq1n, htq1⟩ := popTask_nodup hp inv.queueNodup
      simp only [hcs]
      apply inv_runTask
      have hcs2 : s.calls t = some ⟨cs.opts, Phase.queued, false, cs.startedAt⟩ := by
        rw [hcs]
        cases cs
        simp only at hq hstf
        rw [hq, hstf]
      refine ⟨?_, inv.domNodup, ?_, ?_, ?_, ?_, ?_, ?_, ?_, inv.keysNodup, inv.owner,
        inv.clockBound, inv.followerLeader, inv.readyLeader⟩
      · exact (inv.domCalls t).mpr (by rw [hcs]; rfl)
      · right
        exact ⟨cs.startedAt, hcs2⟩
      · intro x _
        exact inv.domCalls x
      · exact hq1n
      · exact htq1
      · intro x hx
        exact inv.queueQueued x (popTask_sub hp x hx)
      · exact inv.count
      · intro hcap
        dsimp only
        rw [not_and_or] at hg
        rcases hg with h1 | h1
        · exact absurd hcap h1
        · omega

lemma promote_at (f : Nat → Option CallSt) (L : Nat) (out : Outcome) (x : Nat) :
    promoteFollowers f L out x =
      match f x with
      | some cs =>
        match cs.phase with
        | Phase.follower l =>
          if l = L then some ⟨cs.opts, Phase.followerReady l out, cs.started, cs.startedAt⟩
          else some cs
        | _ => some cs
      | none => none := rfl

lemma promote_none {f : Nat → Option CallSt} {L : Nat} {out : Outcome} {x : Nat}
    (h : f x = none) : promoteFollowers f L out x = none := by
  rw [promote_at, h]

lemma promote_of_not_follower {f : Nat → Option CallSt} {L : Nat} {out : Outcome} {x : Nat}
    {cs : CallSt} (h : f x = some cs) (hph : ∀ l, cs.phase ≠ Phase.follower l) :
    promoteFollowers f L out x = some cs := by
  simp only [promote_at, h]

lemma promote_follower_other {f : Nat → Option CallSt} {L : Nat} {out : Outcome} {x : Nat}
    {cs : CallSt} {l : Nat} (h : f x = some cs) (hph : cs.phase = Phase.follower l)
    (hne : l ≠ L) : promoteFollowers f L out x = some cs := by
  simp only [promote_at, h, hph]
  simp [hne]

lemma promote_follower_hit {f : Nat → Option CallSt} {L : Nat} {out : Outcome} {x : Nat}
    {cs : CallSt} (h : f x = some cs) (hph : cs.phase = Phase.follower L) :
    promoteFollowers f L out x
      = some ⟨cs.opts, Phase.followerReady L out, cs.started, cs.startedAt⟩ := by
  simp only [promote_at, h, hph]
  simp

lemma promote_inv {f : Nat → Option CallSt} {L : Nat} {out : Outcome} {x : Nat} {cs2 : CallSt}
    (h : promoteFollowers f L out x = some cs2) :
    ∃ cs1, f x = some cs1 ∧ cs2.opts = cs1.opts ∧ cs2.started = cs1.started ∧
      cs2.startedAt = cs1.startedAt := by
  rw [promote_at] at h
  cases hfx : f x with
  | none => rw [hfx] at h; cases h
  | some cs1 =>
    simp only [hfx] at h
    refine ⟨cs1, rfl, ?_⟩
    cases hph : cs1.phase <;> simp only [hph] at h
    case follower l =>
      by_cases hl : l = L
      · rw [if_pos hl] at h
        injection h with h2
        subst h2
        exact ⟨rfl, rfl, rfl⟩
      · rw [if_neg hl] at h
        injection h with h2
        subst h2
        exact ⟨rfl, rfl, rfl⟩
    all_goals (injection h with h2; subst h2; exact ⟨rfl, rfl, rfl⟩)

lemma promote_inv_phase_follower {f : Nat → Option CallSt} {L : Nat} {out : Outcome} {x : Nat}
    {cs2 : CallSt} {lx : Nat} (h : promoteFollowers f L out x = some cs2)
    (hph : cs2.phase = Phase.follower lx) : f x = some cs2 ∧ lx ≠ L := by
  rw [promote_at] at h
  cases hfx : f x with
  | none => rw [hfx] at h; cases h
  | some cs1 =>
    simp only [hfx] at h
    cases hph1 : cs1.phase <;> simp only [hph1] at h
    case follower l =>
      by_cases hl : l = L
      · rw [if_pos hl] at h
        injection h with h2
        subst h2
        simp at hph
      · rw [if_neg hl] at h
        injection h with h2
        subst h2
        rw [hph] at hph1
        injection hph1 with hl2
        exact ⟨rfl, by rw [hl2]; exact hl⟩
    all_goals
      (injection h with h2; subst h2; rw [hph] at hph1; cases hph1)

lemma promote_inv_phase_ready {f : Nat → Option CallSt} {L : Nat} {out : Outcome} {x : Nat}
    {cs2 : CallSt} {lx : Nat} {out2 : Outcome} (h : promoteFollowers f L out x = some cs2)
    (hph : cs2.phase = Phase.followerReady lx out2) :
    f x = some cs2 ∨
      (lx = L ∧ out2 = out ∧
        ∃ cs1, f x = some cs1 ∧ cs1.phase = Phase.follower lx ∧ cs1.opts = cs2.opts ∧
          cs1.started = cs2.started ∧ cs1.startedAt = cs2.startedAt) := by
  rw [promote_at] at h
  cases hfx : f x with
  | none => rw [hfx] at h; cases h
  | some cs1 =>
    simp only [hfx] at h
    cases hph1 : cs1.phase <;> simp only [hph1] at h
    case follower l =>
      by_cases hl : l = L
      · rw [if_pos hl] at h
        injection h with h2
        subst h2
        simp only at hph
        injection hph with ha hb
        subst ha; subst hb
        right
        exact ⟨hl, rfl, cs1, rfl, hph1, rfl, rfl, rfl⟩
      · rw [if_neg hl] at h
        injection h with h2
        subst h2
        rw [hph] at hph1
        cases hph1
    all_goals (injection h with h2; subst h2; left; rfl)

lemma actInd_promote (f : Nat → Option CallSt) (L : Nat) (out : Outcome) (x : Nat) :
    actInd (promoteFollowers f L out) x = actInd f x := by
  cases hfx : f x with
  | none => rw [actInd, actInd, promote_none hfx, hfx]
  | some cs =>
    by_cases hfol : ∃ l, cs.phase = Phase.follower l
    · obtain ⟨l, hl⟩ := hfol
      by_cases hlL : l = L
      · subst hlL
        rw [actInd, actInd, promote_follower_hit hfx hl]
        simp only [hfx]
        simp [phaseActive, hl]
      · rw [actInd, actInd, promote_follower_other hfx hl hlL, hfx]
    · push_neg at hfol
      rw [actInd, actInd, promote_of_not_follower hfx hfol, hfx]

lemma settleKM_get {s : St} {cs : CallSt} {k1 c1 : Nat}
    (h : mapGet (settleKM s cs) k1 = some c1) :
    mapGet s.keyMap k1 = some c1 ∧ cs.opts.key ≠ some k1 := by
  rw [settleKM.eq_def] at h
  cases hk : cs.opts.key with
  | none =>
    rw [hk] at h
    refine ⟨h, by intro hx; cases hx⟩
  | some k =>
    rw [hk] at h
    simp only at h
    rw [mapGet_delete] at h
    by_cases h1 : k1 = k
    · rw [if_pos h1] at h; cases h
    · rw [if_neg h1] at h
      refine ⟨h, by intro hx; injection hx with hx2; exact h1 hx2.symm⟩

lemma settleKM_nodup {s : St} {cs : CallSt} (h : (keysOf s.keyMap).Nodup) :
    (keysOf (settleKM s cs)).Nodup := by
  rw [settleKM.eq_def]
  cases cs.opts.key with
  | none => exact h
  | some k => exact keysOf_delete_nodup h k

lemma actInd_congr {f g2 : Nat → Option CallSt} {x : Nat} (h : f x = g2 x) :
    actInd f x = actInd g2 x := by rw [actInd, actInd, h]

lemma promote_isSome (f : Nat → Option CallSt) (L : Nat) (out : Outcome) (x : Nat) :
    (promoteFollowers f L out x).isSome = (f x).isSome := by
  cases hfx : f x with
  | none => rw [promote_none hfx]
  | some cs =>
    by_cases hfol : ∃ l, cs.phase = Phase.follower l
    · obtain ⟨l, hl⟩ := hfol
      by_cases hlL : l = L
      · subst hlL
        rw [promote_follower_hit hfx hl]
        rfl
      · rw [promote_follower_other hfx hl hlL]
    · push_neg at hfol
      rw [promote_of_not_follower hfx hfol]

/-- The call table after a settlement: the settling call is recorded as
settled; every other call is promoted. -/
lemma settle_calls_at {s : St} {c : Nat} {out : Outcome} {cs : CallSt}
    (x : Nat) :
    promoteFollowers (setCall s.calls c ⟨cs.opts, Phase.settled out, cs.started, cs.startedAt⟩)
        c out x
      = if x = c then some ⟨cs.opts, Phase.settled out, cs.started, cs.startedAt⟩
        else promoteFollowers s.calls c out x := by
  by_cases hx : x = c
  · subst hx
    rw [if_pos rfl]
    exact promote_of_not_follower (setCall_self _ _ _) (by intro l hx2; simp at hx2)
  · rw [if_neg hx, promote_at, promote_at, setCall_ne _ _ _ _ hx]

/-- The settle block minus the final `dequeue` preserves the client
invariant. -/
lemma inv_settleCore {g : Cfg} {s : St} {c : Nat} {out : Outcome} {cs : CallSt}
    (inv : ClientInv g s) (hcs : s.calls c = some cs) (hrun : cs.phase = Phase.running) :
    ClientInv g (settleCore s c out) := by
  have hcdom : c ∈ s.dom := (inv.domCalls c).mpr (by rw [hcs]; rfl)
  have heq : settleCore s c out = ⟨s.inFlight - 1, s.queue, settleKM s cs,
      promoteFollowers
        (setCall s.calls c ⟨cs.opts, Phase.settled out, cs.started, cs.startedAt⟩) c out,
      s.dom, s.clock⟩ := by
    rw [settleCore.eq_def, hcs]
  rw [heq]
  refine ⟨?_, inv.domNodup, inv.queueNodup, ?_, ?_, ?_, settleKM_nodup inv.keysNodup,
    ?_, ?_, ?_, ?_⟩
  · intro x
    dsimp only
    rw [settle_calls_at]
    by_cases hx : x = c
    · rw [if_pos hx]
      simp only [Option.isSome_some]
      rw [hx]
      simp [hcdom]
    · rw [if_neg hx, promote_isSome]
      exact inv.domCalls x
  · intro x hxq
    dsimp only at hxq ⊢
    obtain ⟨qcs, hq1, hq2, hq3⟩ := inv.queueQueued x hxq
    have hxc : x ≠ c := by
      intro he
      rw [he, hcs] at hq1
      injection hq1 with hq1b
      rw [← hq1b] at hq2
      rw [hq2] at hrun
      cases hrun
    rw [settle_calls_at, if_neg hxc,
      promote_of_not_follower hq1 (by intro l hl; rw [hq2] at hl; cases hl)]
    exact ⟨qcs, rfl, hq2, hq3⟩
  · dsimp only
    show s.inFlight - 1 = sumOver s.dom
      (actInd (promoteFollowers
        (setCall s.calls c ⟨cs.opts, Phase.settled out, cs.started, cs.startedAt⟩) c out))
    have h1 : sumOver s.dom
        (actInd (promoteFollowers
          (setCall s.calls c ⟨cs.opts, Phase.settled out, cs.started, cs.startedAt⟩) c out))
        = sumOver s.dom (actInd (promoteFollowers s.calls c out))
          + (actInd (promoteFollowers
              (setCall s.calls c ⟨cs.opts, Phase.settled out, cs.started, cs.startedAt⟩) c out) c
             - actInd (promoteFollowers s.calls c out) c) := by
      apply sumOver_update hcdom inv.domNodup
      intro x hx
      exact actInd_congr ((settle_calls_at x).trans (if_neg hx)).symm
    rw [h1]
    have h2 : actInd (promoteFollowers
        (setCall s.calls c ⟨cs.opts, Phase.settled out, cs.started, cs.startedAt⟩) c out) c
        = 0 := by
      rw [actInd, settle_calls_at]
      simp [phaseActive]
    have h3 : actInd (promoteFollowers s.calls c out) c = 1 := by
      rw [actInd_promote, actInd, hcs]
      simp [phaseActive, hrun]
    have h4 : sumOver s.dom (actInd (promoteFollowers s.calls c out))
        = sumOver s.dom (actInd s.calls) := by
      apply sumOver_congr
      intro x _
      exact actInd_promote s.calls c out x
    have h5 : s.inFlight = sumOver s.dom (actInd s.calls) := inv.count
    rw [h2, h3, h4, ← h5]
    ring
  · intro hcap
    have := inv.cap hcap
    show s.inFlight - 1 ≤ (g.maxInFlight : ℤ)
    omega
  · intro k1 c1 hget
    dsimp only at hget ⊢
    obtain ⟨hget0, hkey0⟩ := settleKM_get hget
    obtain ⟨cs1, hc1, hrun1, hkey1, hst1, hmax1⟩ := inv.owner k1 c1 hget0
    have hc1c : c1 ≠ c := by
      intro he
      rw [he, hcs] at hc1
      injection hc1 with hc1b
      rw [← hc1b] at hkey1
      exact hkey0 hkey1
    refine ⟨cs1, ?_, hrun1, hkey1, hst1, ?_⟩
    · rw [settle_calls_at, if_neg hc1c,
        promote_of_not_follower hc1 (by intro l hl; rw [hrun1] at hl; cases hl)]
    · intro d ds hd hdk hdst
      rw [settle_calls_at] at hd
      by_cases hdc : d = c
      · rw [if_pos hdc] at hd
        injection hd with hd2
        have heq2 : ds.opts = cs.opts ∧ ds.started = cs.started ∧ ds.startedAt = cs.startedAt := by
          rw [← hd2]
          exact ⟨rfl, rfl, rfl⟩
        rw [heq2.2.2]
        apply hmax1 c cs hcs
        · rw [← heq2.1]; exact hdk
        · rw [← heq2.2.1]; exact hdst
      · rw [if_neg hdc] at hd
        obtain ⟨ds1, hds1, hopts, hstarted, hstartedAt⟩ := promote_inv hd
        rw [hstartedAt]
        apply hmax1 d ds1 hds1
        · rw [← hopts]; exact hdk
        · rw [← hstarted]; exact hdst
  · intro x cs2 hx hst
    dsimp only at hx ⊢
    rw [settle_calls_at] at hx
    by_cases hxc : x = c
    · rw [if_pos hxc] at hx
      injection hx with hx2
      have h6 : cs2.started = cs.started ∧ cs2.startedAt = cs.startedAt := by
        rw [← hx2]; exact ⟨rfl, rfl⟩
      rw [h6.2]
      apply inv.clockBound c cs hcs
      rw [← h6.1]; exact hst
    · rw [if_neg hxc] at hx
      obtain ⟨ds1, hds1, hopts, hstarted, hstartedAt⟩ := promote_inv hx
      rw [hstartedAt]
      apply inv.clockBound x ds1 hds1
      rw [← hstarted]; exact hst
  · intro x cs2 lx hx hph
    dsimp only at hx ⊢
    rw [settle_calls_at] at hx
    by_cases hxc : x = c
    · rw [if_pos hxc] at hx
      injection hx with hx2
      rw [← hx2] at hph
      simp at hph
    · rw [if_neg hxc] at hx
      obtain ⟨horig, hlxc⟩ := promote_inv_phase_follower hx hph
      obtain ⟨hstf, ls2, hls2, hrun2⟩ := inv.followerLeader x cs2 lx horig hph
      refine ⟨hstf, ls2, ?_, hrun2⟩
      rw [settle_calls_at, if_neg hlxc,
        promote_of_not_follower hls2 (by intro l hl; rw [hrun2] at hl; cases hl)]
  · intro x cs2 lx out2 hx hph
    dsimp only at hx ⊢
    rw [settle_calls_at] at hx
    by_cases hxc : x = c
    · rw [if_pos hxc] at hx
      injection hx with hx2
      rw [← hx2] at hph
      simp at hph
    · rw [if_neg hxc] at hx
      rcases promote_inv_phase_ready hx hph with horig | ⟨hlxc, hout2, cs1, hc1, hph1, hopts, hstarted, hstartedAt⟩
      · obtain ⟨hstf, ls2, hls2, hset2⟩ := inv.readyLeader x cs2 lx out2 horig hph
        have hlxc : lx ≠ c := by
          intro he
          rw [he, hcs] at hls2
          injection hls2 with hb
          rw [← hb] at hset2
          rw [hset2] at hrun
          cases hrun
        refine ⟨hstf, ls2, ?_, hset2⟩
        rw [settle_calls_at, if_neg hlxc,
          promote_of_not_follower hls2 (by intro l hl; rw [hset2] at hl; cases hl)]
      · obtain ⟨hstf, ls2, hls2, hrun2⟩ := inv.followerLeader x cs1 lx hc1 hph1
        subst hlxc
        refine ⟨by rw [hstarted] at hstf; exact hstf,
          ⟨cs.opts, Phase.settled out, cs.started, cs.startedAt⟩, ?_, ?_⟩
        · rw [settle_calls_at, if_pos rfl]
        · rw [hout2]

/-- The settle event preserves the client invariant. -/
lemma inv_settle {g : Cfg} {s : St} {c : Nat} {out : Outcome} {s1 : St}
    (inv : ClientInv g s) (h : settleStep g s c out = some s1) : ClientInv g s1 := by
  rw [settleStep.eq_def] at h
  cases hcs : s.calls c with
  | none => rw [hcs] at h; cases h
  | some cs =>
    simp only [hcs] at h
    by_cases hrun : cs.phase = Phase.running
    · rw [if_pos hrun] at h
      injection h with h2
      subst h2
      exact inv_dequeue (inv_settleCore inv hcs hrun)
    · rw [if_neg hrun] at h
      cases h

/-- The follower-settlement microtask preserves the client invariant. -/
lemma inv_followerFinish {g : Cfg} {s : St} {c : Nat} {s1 : St}
    (inv : ClientInv g s) (h : followerFinishStep g s c = some s1) : ClientInv g s1 := by
  rw [followerFinishStep.eq_def] at h
  cases hcs : s.calls c with
  | none => rw [hcs] at h; cases h
  | some cs =>
    simp only [hcs] at h
    cases hph : cs.phase
    case followerReady l out =>
      simp only [hph] at h
      injection h with h2
      subst h2
      apply inv_dequeue
      obtain ⟨hstf, ls, hls, hlset⟩ := inv.readyLeader c cs l out hcs hph
      have hcdom : c ∈ s.dom := (inv.domCalls c).mpr (by rw [hcs]; rfl)
      refine ⟨?_, inv.domNodup, inv.queueNodup, ?_, ?_, ?_, inv.keysNodup, ?_, ?_, ?_, ?_⟩
      · intro x
        dsimp only
        by_cases hx : x = c
        · subst hx
          rw [setCall_self]
          simp [hcdom]
        · rw [setCall_ne _ _ _ _ hx]
          exact inv.domCalls x
      · intro x hxq
        dsimp only at hxq ⊢
        obtain ⟨qcs, hq1, hq2, hq3⟩ := inv.queueQueued x hxq
        have hxc : x ≠ c := by
          intro he
          rw [he, hcs] at hq1
          injection hq1 with hq1b
          rw [← hq1b] at hq2
          rw [hq2] at hph
          cases hph
        rw [setCall_ne _ _ _ _ hxc]
        exact ⟨qcs, hq1, hq2, hq3⟩
      · dsimp only
        show s.inFlight - 1 = sumOver s.dom
          (actInd (setCall s.calls c ⟨cs.opts, Phase.settled out, cs.started, cs.startedAt⟩))
        rw [sum_actInd_setCall hcdom inv.domNodup]
        have h5 : s.inFlight = sumOver s.dom (actInd s.calls) := inv.count
        have h6 : actInd s.calls c = 1 := by
          rw [actInd, hcs]
          simp [phaseActive, hph]
        rw [h6, ← h5]
        simp [phaseActive]
        omega
      · intro hcap
        have := inv.cap hcap
        show s.inFlight - 1 ≤ (g.maxInFlight : ℤ)
        omega
      · intro k1 c1 hget
        dsimp only at hget ⊢
        obtain ⟨cs1, hc1, hrun1, hkey1, hst1, hmax1⟩ := inv.owner k1 c1 hget
        have hc1c : c1 ≠ c := by
          intro he
          rw [he, hcs] at hc1
          injection hc1 with hb
          rw [← hb] at hrun1
          rw [hrun1] at hph
          cases hph
        refine ⟨cs1, by rw [setCall_ne _ _ _ _ hc1c]; exact hc1, hrun1, hkey1, hst1, ?_⟩
        intro d ds hd hdk hdst
        by_cases hdc : d = c
        · rw [hdc, setCall_self] at hd
          injection hd with hd2
          have heq2 : ds.started = cs.started := by rw [← hd2]
          rw [heq2, hstf] at hdst
          cases hdst
        · rw [setCall_ne _ _ _ _ hdc] at hd
          exact hmax1 d ds hd hdk hdst
      · intro x cs2 hx hst
        dsimp only at hx ⊢
        by_cases hxc : x = c
        · rw [hxc, setCall_self] at hx
          injection hx with hx2
          have heq2 : cs2.started = cs.started := by rw [← hx2]
          rw [heq2, hstf] at hst
          cases hst
        · rw [setCall_ne _ _ _ _ hxc] at hx
          exact inv.clockBound x cs2 hx hst
      · intro x cs2 lx hx hph2
        dsimp only at hx ⊢
        by_cases hxc : x = c
        · rw [hxc, setCall_self] at hx
          injection hx with hx2
          rw [← hx2] at hph2
          simp at hph2
        · rw [setCall_ne _ _ _ _ hxc] at hx
          obtain ⟨hstf2, ls2, hls2, hrun2⟩ := inv.followerLeader x cs2 lx hx hph2
          have hlxc : lx ≠ c := by
            intro he
            rw [he, hcs] at hls2
            injection hls2 with hb
            rw [← hb] at hrun2
            rw [hrun2] at hph
            cases hph
          exact ⟨hstf2, ls2, by rw [setCall_ne _ _ _ _ hlxc]; exact hls2, hrun2⟩
      · intro x cs2 lx out2 hx hph2
        dsimp only at hx ⊢
        by_cases hxc : x = c
        · rw [hxc, setCall_self] at hx
          injection hx with hx2
          rw [← hx2] at hph2
          simp at hph2
        · rw [setCall_ne _ _ _ _ hxc] at hx
          obtain ⟨hstf2, ls2, hls2, hset2⟩ := inv.readyLeader x cs2 lx out2 hx hph2
          have hlxc : lx ≠ c := by
            intro he
            rw [he, hcs] at hls2
            injection hls2 with hb
            rw [← hb] at hset2
            rw [hset2] at hph
            cases hph
          exact ⟨hstf2, ls2, by rw [setCall_ne _ _ _ _ hlxc]; exact hls2, hset2⟩
    all_goals (simp only [hph] at h; cases h)

/-- `request()` (submission) preserves the client invariant. -/
lemma inv_submit {g : Cfg} {s : St} {c : Nat} {o : CallOpts} {s1 : St}
    (inv : ClientInv g s) (h : submitStep g s c o = some s1) : ClientInv g s1 := by
  rw [submitStep.eq_def] at h
  cases hcs : s.calls c with
  | some cs => rw [hcs] at h; cases h
  | none =>
    simp only [hcs] at h
    have hfresh : c ∉ s.dom := by
      intro hmem
      have := (inv.domCalls c).mp hmem
      rw [hcs] at this
      cases this
    have hnq : c ∉ s.queue := by
      intro hmem
      obtain ⟨qcs, hq1, _, _⟩ := inv.queueQueued c hmem
      rw [hcs] at hq1
      cases hq1
    have hdomnodup : (s.dom ++ [c]).Nodup := by
      rw [List.nodup_append]
      exact ⟨inv.domNodup, List.nodup_singleton c, by
        intro x hx
        simp only [List.mem_singleton]
        intro hxc
        exact hfresh (hxc ▸ hx)⟩
    have hdomother : ∀ x, x ≠ c → (x ∈ s.dom ++ [c] ↔ (s.calls x).isSome = true) := by
      intro x hx
      rw [List.mem_append, List.mem_singleton]
      constructor
      · intro hmem
        rcases hmem with hmem | hmem
        · exact (inv.domCalls x).mp hmem
        · exact absurd hmem hx
      · intro hsome
        exact Or.inl ((inv.domCalls x).mpr hsome)
    have hcount : s.inFlight = sumOver (s.dom ++ [c]) (actInd s.calls) := by
      rw [sumOver_append]
      have : sumOver [c] (actInd s.calls) = 0 := by
        rw [sumOver, sumOver, actInd, hcs]
        rfl
      rw [this, add_zero]
      exact inv.count
    by_cases hcap : g.maxInFlight = 0 ∨ s.inFlight < (g.maxInFlight : ℤ)
    · rw [if_pos hcap] at h
      injection h with h2
      subst h2
      apply inv_runTask
      refine ⟨by simp, hdomnodup, Or.inl hcs, ?_, inv.queueNodup, hnq, inv.queueQueued,
        hcount, ?_, inv.keysNodup, inv.owner, inv.clockBound, inv.followerLeader,
        inv.readyLeader⟩
      · intro x hx
        exact hdomother x hx
      · intro hc0
        rcases hcap with h1 | h1
        · omega
        · exact h1
    · rw [if_neg hcap] at h
      rw [not_or, not_lt] at hcap
      obtain ⟨hcap0, hcapLe⟩ := hcap
      by_cases hstr : g.strategy = QueueStrategy.drop
      · rw [if_pos hstr] at h
        injection h with h2
        subst h2
        refine ⟨?_, hdomnodup, inv.queueNodup, ?_, ?_, ?_, inv.keysNodup, ?_, ?_, ?_, ?_⟩
        · intro x
          dsimp only
          by_cases hx : x = c
          · subst hx
            rw [setCall_self]
            simp
          · rw [setCall_ne _ _ _ _ hx]
            exact hdomother x hx
        · intro x hxq
          dsimp only at hxq ⊢
          have hxc : x ≠ c := fun he => hnq (he ▸ hxq)
          rw [setCall_ne _ _ _ _ hxc]
          exact inv.queueQueued x hxq
        · dsimp only
          show s.inFlight = sumOver (s.dom ++ [c])
            (actInd (setCall s.calls c ⟨o, Phase.dropped, false, 0⟩))
          rw [sum_actInd_setCall (by simp) hdomnodup, ← hcount]
          have : actInd s.calls c = 0 := by rw [actInd, hcs]
          rw [this]
          simp [phaseActive]
        · intro hc0
          exact inv.cap hc0
        · intro k1 c1 hget
          dsimp only at hget ⊢
          obtain ⟨cs1, hc1, hrun1, hkey1, hst1, hmax1⟩ := inv.owner k1 c1 hget
          have hc1c : c1 ≠ c := by
            intro he
            rw [he, hcs] at hc1
            cases hc1
          refine ⟨cs1, by rw [setCall_ne _ _ _ _ hc1c]; exact hc1, hrun1, hkey1, hst1, ?_⟩
          intro d ds hd hdk hdst
          by_cases hdc : d = c
          · rw [hdc, setCall_self] at hd
            injection hd with hd2
            have : ds.started = false := by rw [← hd2]
            rw [this] at hdst
            cases hdst
          · rw [setCall_ne _ _ _ _ hdc] at hd
            exact hmax1 d ds hd hdk hdst
        · intro x cs2 hx hst
          dsimp only at hx ⊢
          by_cases hxc : x = c
          · rw [hxc, setCall_self] at hx
            injection hx with hx2
            have : cs2.started = false := by rw [← hx2]
            rw [this] at hst
            cases hst
          · rw [setCall_ne _ _ _ _ hxc] at hx
            exact inv.clockBound x cs2 hx hst
        · intro x cs2 lx hx hph2
          dsimp only at hx ⊢
          by_cases hxc : x = c
          · rw [hxc, setCall_self] at hx
            injection hx with hx2
            rw [← hx2] at hph2
            simp at hph2
          · rw [setCall_ne _ _ _ _ hxc] at hx
            obtain ⟨hstf2, ls2, hls2, hrun2⟩ := inv.followerLeader x cs2 lx hx hph2
            have hlxc : lx ≠ c := by
              intro he
              rw [he, hcs] at hls2
              cases hls2
            exact ⟨hstf2, ls2, by rw [setCall_ne _ _ _ _ hlxc]; exact hls2, hrun2⟩
        · intro x cs2 lx out2 hx hph2
          dsimp only at hx ⊢
          by_cases hxc : x = c
          · rw [hxc, setCall_self] at hx
            injection hx with hx2
            rw [← hx2] at hph2
            simp at hph2
          · rw [setCall_ne _ _ _ _ hxc] at hx
            obtain ⟨hstf2, ls2, hls2, hset2⟩ := inv.readyLeader x cs2 lx out2 hx hph2
            have hlxc : lx ≠ c := by
              intro he
              rw [he, hcs] at hls2
              cases hls2
            exact ⟨hstf2, ls2, by rw [setCall_ne _ _ _ _ hlxc]; exact hls2, hset2⟩
      · rw [if_neg hstr] at h
        injection h with h2
        subst h2
        refine ⟨?_, hdomnodup, ?_, ?_, ?_, ?_, inv.keysNodup, ?_, ?_, ?_, ?_⟩
        · intro x
          dsimp only
          by_cases hx : x = c
          · subst hx
            rw [setCall_self]
            simp
          · rw [setCall_ne _ _ _ _ hx]
            exact hdomother x hx
        · dsimp only
          rw [List.nodup_append]
          exact ⟨inv.queueNodup, List.nodup_singleton c, by
            intro x hx
            simp only [List.mem_singleton]
            intro hxc
            exact hnq (hxc ▸ hx)⟩
        · intro x hxq
          dsimp only at hxq ⊢
          rw [List.mem_append, List.mem_singleton] at hxq
          rcases hxq with hxq | hxq
          · have hxc : x ≠ c := fun he => hnq (he ▸ hxq)
            rw [setCall_ne _ _ _ _ hxc]
            exact inv.queueQueued x hxq
          · subst hxq
            rw [setCall_self]
            exact ⟨⟨o, Phase.queued, false, 0⟩, rfl, rfl, rfl⟩
        · dsimp only
          show s.inFlight = sumOver (s.dom ++ [c])
            (actInd (setCall s.calls c ⟨o, Phase.queued, false, 0⟩))
          rw [sum_actInd_setCall (by simp) hdomnodup, ← hcount]
          have : actInd s.calls c = 0 := by rw [actInd, hcs]
          rw [this]
          simp [phaseActive]
        · intro hc0
          exact inv.cap hc0
        · intro k1 c1 hget
          dsimp only at hget ⊢
          obtain ⟨cs1, hc1, hrun1, hkey1, hst1, hmax1⟩ := inv.owner k1 c1 hget
          have hc1c : c1 ≠ c := by
            intro he
            rw [he, hcs] at hc1
            cases hc1
          refine ⟨cs1, by rw [setCall_ne _ _ _ _ hc1c]; exact hc1, hrun1, hkey1, hst1, ?_⟩
          intro d ds hd hdk hdst
          by_cases hdc : d = c
          · rw [hdc, setCall_self] at hd
            injection hd with hd2
            have : ds.started = false := by rw [← hd2]
            rw [this] at hdst
            cases hdst
          · rw [setCall_ne _ _ _ _ hdc] at hd
            exact hmax1 d ds hd hdk hdst
        · intro x cs2 hx hst
          dsimp only at hx ⊢
          by_cases hxc : x = c
          · rw [hxc, setCall_self] at hx
            injection hx with hx2
            have : cs2.started = false := by rw [← hx2]
            rw [this] at hst
            cases hst
          · rw [setCall_ne _ _ _ _ hxc] at hx
            exact inv.clockBound x cs2 hx hst
        · intro x cs2 lx hx hph2
          dsimp only at hx ⊢
          by_cases hxc : x = c
          · rw [hxc, setCall_self] at hx
            injection hx with hx2
            rw [← hx2] at hph2
            simp at hph2
          · rw [setCall_ne _ _ _ _ hxc] at hx
            obtain ⟨hstf2, ls2, hls2, hrun2⟩ := inv.followerLeader x cs2 lx hx hph2
            have hlxc : lx ≠ c := by
              intro he
              rw [he, hcs] at hls2
              cases hls2
            exact ⟨hstf2, ls2, by rw [setCall_ne _ _ _ _ hlxc]; exact hls2, hrun2⟩
        · intro x cs2 lx out2 hx hph2
          dsimp only at hx ⊢
          by_cases hxc : x = c
          · rw [hxc, setCall_self] at hx
            injection hx with hx2
            rw [← hx2] at hph2
            simp at hph2
          · rw [setCall_ne _ _ _ _ hxc] at hx
            obtain ⟨hstf2, ls2, hls2, hset2⟩ := inv.readyLeader x cs2 lx out2 hx hph2
            have hlxc : lx ≠ c := by
              intro he
              rw [he, hcs] at hls2
              cases hls2
            exact ⟨hstf2, ls2, by rw [setCall_ne _ _ _ _ hlxc]; exact hls2, hset2⟩

/-- Every step of the client preserves the invariant. -/
lemma inv_step {g : Cfg} {s : St} {e : Ev} {s1 : St}
    (inv : ClientInv g s) (h : stepFn g s e = some s1) : ClientInv g s1 := by
  cases e with
  | submit c o => exact inv_submit inv h
  | settle c out => exact inv_settle inv h
  | finishFollower c => exact inv_followerFinish inv h

/-- The invariant holds in the fresh client state. -/
lemma inv_init (g : Cfg) : ClientInv g initSt := by
  refine ⟨?_, ?_, ?_, ?_, rfl, ?_, ?_, ?_, ?_, ?_, ?_⟩ <;>
    simp [initSt, OwnerInv, FollowerInv, ReadyInv, mapGet, keysOf, List.Nodup]

/-- Every reachable client state satisfies the invariant. -/
lemma inv_reachable {g : Cfg} {s : St} (h : Reachable g s) : ClientInv g s := by
  induction h with
  | refl => exact inv_init g
  | tail _ hstep ih => exact inv_step ih hstep

/-! ## Hook-log accounting for `runWithRetry` -/

/-- Is a hook event an `onFinish` invocation? -/
def isFinishEv : HookEv → Bool
  | .finish _ _ => true
  | _ => false

/-- Number of `onFinish` invocations in a hook log. -/
def finishCount (l : List HookEv) : Nat := (l.filter isFinishEv).length

/-- Did the `fetch` of an attempt produce a response (as opposed to
throwing)? -/
def fetchedOk (fr : Except JSError JSResponse) : Bool :=
  match fr with
  | .ok _ => true
  | .error _ => false

/-- Number of attempts among `i, i+1, ..., i+n-1` whose `fetch`
produced a response. -/
def respCount (fetched : Nat → Except JSError JSResponse) : Nat → Nat → Nat
  | _, 0 => 0
  | i, n + 1 => (if fetchedOk (fetched i) then 1 else 0) + respCount fetched (i + 1) n

lemma finishCount_append (l1 l2 : List HookEv) :
    finishCount (l1 ++ l2) = finishCount l1 + finishCount l2 := by
  simp [finishCount, List.filter_append]

lemma finishCount_doFetch (parse : JSResponse → Outcome) (fr : Except JSError JSResponse) :
    finishCount (doFetch parse fr).1 = if fetchedOk fr then 1 else 0 := by
  cases fr with
  | error e => simp [doFetch, finishCount, isFinishEv, fetchedOk]
  | ok r =>
    by_cases hok : resOk r = true <;>
      simp [doFetch, finishCount, isFinishEv, fetchedOk, hok]

/-- Per execution of the retry loop, `onFinish` fires exactly once per
attempt whose `fetch` produced a response. -/
lemma finishCount_go (p : Option RetryPolicy) (parse : JSResponse → Outcome)
    (fetched : Nat → Except JSError JSResponse) (u : Nat → ℚ) :
    ∀ (fuel i : Nat) (errLast : Option JSError),
      finishCount (runWithRetryGo p parse fetched u i fuel errLast).log
        = respCount fetched i (runWithRetryGo p parse fetched u i fuel errLast).attemptsMade := by
  intro fuel
  induction fuel with
  | zero => intro i errLast; rfl
  | succ fuel ih =>
    intro i errLast
    rw [runWithRetryGo]
    cases hatt : (doFetch parse (fetched i)).2 with
    | ok v =>
      simp only [hatt]
      rw [respCount, respCount, finishCount_doFetch]
      omega
    | err e =>
      simp only [hatt]
      by_cases hab : isAbortError e = true
      · rw [if_pos hab]
        rw [respCount, respCount, finishCount_doFetch]
        omega
      · rw [if_neg hab]
        cases p with
        | none =>
          rw [respCount, respCount, finishCount_doFetch]
          omega
        | some q =>
          by_cases hwr : (decide (i + 1 < q.attempts) && shouldRetryOf (some q) none (some e)) = true
          · simp only [hwr, if_true]
            rw [finishCount_append, finishCount_doFetch, ih (i + 1) (some e), respCount]
          · rw [Bool.not_eq_true] at hwr
            simp only [hwr]
            rw [if_neg Bool.false_ne_true]
            rw [respCount, respCount, finishCount_doFetch]
            omega

/-- `onFinish` fires exactly once per response-received attempt of a
whole `runWithRetry` execution. -/
lemma finishCount_runWithRetry (p : Option RetryPolicy) (parse : JSResponse → Outcome)
    (fetched : Nat → Except JSError JSResponse) (u : Nat → ℚ) :
    finishCount (runWithRetry p parse fetched u).log
      = respCount fetched 0 (runWithRetry p parse fetched u).attemptsMade :=
  finishCount_go p parse fetched u _ 0 none

/-! ## Backoff arithmetic -/

lemma qpow_nonneg {q : ℚ} (h : 0 ≤ q) : ∀ n, 0 ≤ qpow q n
  | 0 => by rw [qpow]; norm_num
  | n + 1 => by rw [qpow]; exact mul_nonneg h (qpow_nonneg h n)

lemma rawOf_nonneg {p : RetryPolicy} {i : ℤ} (hb : 0 ≤ p.backoffBaseMs.getD 150)
    (hf : 0 ≤ p.backoffFactor.getD 2) : 0 ≤ rawOf p i :=
  mul_nonneg hb (qpow_nonneg hf _)

lemma jsRound_nonneg {x : ℚ} (h : 0 ≤ x) : 0 ≤ jsRound x := by
  rw [jsRound]
  have : (0 : ℚ) ≤ x + 1 / 2 := by linarith
  exact Int.le_floor.mpr (by exact_mod_cast this)

/-! ## Behaviour of the signal composer -/

lemma combineLoop_fired :
    ∀ (sgs : List (Option (Option AbortReason))) (idx : Nat),
      hasAbortedInput sgs = true → (combineLoop sgs idx).1 = some AbortReason.abortDefault := by
  intro sgs
  induction sgs with
  | nil => intro idx h; simp [hasAbortedInput] at h
  | cons x rest ih =>
    intro idx h
    match x with
    | none =>
      rw [combineLoop]
      apply ih
      simpa [hasAbortedInput] using h
    | some none =>
      rw [combineLoop]
      apply ih
      simpa [hasAbortedInput] using h
    | some (some r) => rw [combineLoop]

lemma combineLoop_live :
    ∀ (sgs : List (Option (Option AbortReason))) (idx : Nat),
      hasAbortedInput sgs = false → (combineLoop sgs idx).1 = none := by
  intro sgs
  induction sgs with
  | nil => intro idx h; rfl
  | cons x rest ih =>
    intro idx h
    match x with
    | none =>
      rw [combineLoop]
      apply ih
      simpa [hasAbortedInput] using h
    | some none =>
      rw [combineLoop]
      apply ih
      simpa [hasAbortedInput] using h
    | some (some r) => simp [hasAbortedInput] at h

/-! ## Step-level facts used by the claims -/

lemma actInd_nonneg (f : Nat → Option CallSt) (x : Nat) : 0 ≤ actInd f x := by
  rw [actInd]
  cases f x with
  | none => norm_num
  | some cs => by_cases h : phaseActive cs.phase = true <;> simp [h]

lemma runInd_le_actInd (f : Nat → Option CallSt) (x : Nat) : runInd f x ≤ actInd f x := by
  rw [actInd, runInd]
  cases f x with
  | none => norm_num
  | some cs =>
    show (if cs.phase = Phase.running then (1 : ℤ) else 0)
      ≤ if phaseActive cs.phase = true then 1 else 0
    by_cases h : cs.phase = Phase.running
    · simp [h, phaseActive]
    · rw [if_neg h]
      by_cases h2 : phaseActive cs.phase = true <;> simp [h2]

lemma runTask_queue (s : St) (c : Nat) (o : CallOpts) : (runTask s c o).queue = s.queue := by
  rcases runTask_cases s c o with ⟨l, _, heq⟩ | ⟨k, _, _, heq⟩ | ⟨_, _, heq⟩ <;> rw [heq]

lemma runTask_inFlight (s : St) (c : Nat) (o : CallOpts) :
    (runTask s c o).inFlight = s.inFlight + 1 := by
  rcases runTask_cases s c o with ⟨l, _, heq⟩ | ⟨k, _, _, heq⟩ | ⟨_, _, heq⟩ <;> rw [heq]

lemma runTask_calls_ne (s : St) (c : Nat) (o : CallOpts) (x : Nat) (hx : x ≠ c) :
    (runTask s c o).calls x = s.calls x := by
  rcases runTask_cases s c o with ⟨l, _, heq⟩ | ⟨k, _, _, heq⟩ | ⟨_, _, heq⟩ <;> rw [heq] <;>
    exact setCall_ne _ _ _ _ hx

/-- The dedupe path of `task.run` (lines 242-254): with the `dedupe`
flag, no `lastOneWins`, and a live record for the key, the call only
attaches as a follower: the counter is bumped (line 229), the registry
is untouched, no `runWithRetry` is started for it. -/
lemma runTask_dedupe_eq {s : St} {c : Nat} {o : CallOpts} {k l : Nat}
    (hk : o.key = some k) (hd : o.dedupe = true) (hw : o.lastOneWins = false)
    (hget : mapGet s.keyMap k = some l) :
    runTask s c o = ⟨s.inFlight + 1, s.queue, s.keyMap,
      setCall s.calls c ⟨o, Phase.follower l, false, 0⟩, s.dom, s.clock⟩ := by
  have hsk : superKM s o = s.keyMap := by
    simp [superKM, hk, hw]
  have hdt : dedupeTarget s.keyMap o = some l := by
    simp [dedupeTarget, hk, hd, hget]
  rw [runTask]
  simp only [hsk, hdt]

lemma settleStep_inv {g : Cfg} {s : St} {c : Nat} {out : Outcome} {s1 : St}
    (h : settleStep g s c out = some s1) :
    ∃ cs, s.calls c = some cs ∧ cs.phase = Phase.running ∧
      s1 = dequeueStep g (settleCore s c out) := by
  rw [settleStep.eq_def] at h
  cases hcs : s.calls c with
  | none => rw [hcs] at h; cases h
  | some cs =>
    simp only [hcs] at h
    by_cases hrun : cs.phase = Phase.running
    · rw [if_pos hrun] at h
      injection h with h2
      exact ⟨cs, rfl, hrun, h2.symm⟩
    · rw [if_neg hrun] at h
      cases h

lemma followerFinish_inv {g : Cfg} {s : St} {c : Nat} {s1 : St}
    (h : followerFinishStep g s c = some s1) :
    ∃ cs l out, s.calls c = some cs ∧ cs.phase = Phase.followerReady l out ∧
      s1 = dequeueStep g ⟨s.inFlight - 1, s.queue, s.keyMap,
        setCall s.calls c ⟨cs.opts, Phase.settled out, cs.started, cs.startedAt⟩,
        s.dom, s.clock⟩ := by
  rw [followerFinishStep.eq_def] at h
  cases hcs : s.calls c with
  | none => rw [hcs] at h; cases h
  | some cs =>
    simp only [hcs] at h
    cases hph : cs.phase
    case followerReady l out =>
      simp only [hph] at h
      injection h with h2
      exact ⟨cs, l, out, rfl, hph, h2.symm⟩
    all_goals (simp only [hph] at h; cases h)

lemma dequeueStep_cases (g : Cfg) (s : St)
    (hq : ∀ x ∈ s.queue, (s.calls x).isSome = true) :
    dequeueStep g s = s ∨
      ∃ t q1 cs, popTask g s.queue = some (t, q1) ∧ s.calls t = some cs ∧
        dequeueStep g s = runTask ⟨s.inFlight, q1, s.keyMap, s.calls, s.dom, s.clock⟩ t cs.opts := by
  rw [dequeueStep]
  by_cases hg : 0 < g.maxInFlight ∧ (g.maxInFlight : ℤ) ≤ s.inFlight
  · rw [if_pos hg]
    left
    rfl
  · rw [if_neg hg]
    cases hp : popTask g s.queue with
    | none => left; rfl
    | some tq =>
      obtain ⟨t, q1⟩ := tq
      have hts := hq t (popTask_mem hp)
      cases hcs : s.calls t with
      | none => rw [hcs] at hts; cases hts
      | some cs =>
        simp only [hcs]
        right
        exact ⟨t, q1, cs, rfl, hcs, rfl⟩

lemma dequeue_preserves_calls {g : Cfg} {s : St} {x : Nat} {xs : CallSt}
    (hq : ∀ t ∈ s.queue, ∃ ts, s.calls t = some ts ∧ ts.phase = Phase.queued)
    (hx : s.calls x = some xs) (hxph : xs.phase ≠ Phase.queued) :
    (dequeueStep g s).calls x = s.calls x := by
  rcases dequeueStep_cases g s
      (fun t ht => by obtain ⟨ts, hts, _⟩ := hq t ht; rw [hts]; rfl) with
    heq | ⟨t, q1, ts, hp, hts, heq⟩
  · rw [heq]
  · rw [heq]
    have htx : x ≠ t := by
      intro he
      obtain ⟨ts2, hts2, hph2⟩ := hq t (popTask_mem hp)
      rw [← he, hx] at hts2
      injection hts2 with hb
      rw [← hb] at hph2
      exact hxph hph2
    exact runTask_calls_ne _ _ _ _ htx

lemma dequeue_queue_cases (g : Cfg) (s : St)
    (hq : ∀ x ∈ s.queue, (s.calls x).isSome = true) :
    ((dequeueStep g s).queue = s.queue ∧ (dequeueStep g s).inFlight = s.inFlight) ∨
      ∃ t q1, popTask g s.queue = some (t, q1) ∧ (dequeueStep g s).queue = q1 ∧
        (dequeueStep g s).inFlight = s.inFlight + 1 := by
  rcases dequeueStep_cases g s hq with heq | ⟨t, q1, cs, hp, hcs, heq⟩
  · rw [heq]
    left
    exact ⟨rfl, rfl⟩
  · rw [heq]
    right
    exact ⟨t, q1, hp, by rw [runTask_queue], by rw [runTask_inFlight]⟩

/-! ## Concrete clients, options and traces used in the claim instances -/

/-- A client with capacity 1 and the `fifo` strategy. -/
def cfg1 : Cfg := ⟨1, .fifo⟩

/-- A client with capacity 1 and the `lifo` strategy. -/
def cfgL : Cfg := ⟨1, .lifo⟩

/-- Options: no key, no flags. -/
def oPlain : CallOpts := ⟨none, false, false⟩

/-- Two attempts, base 150, factor 2, no jitter, default predicate. -/
def pol2 : RetryPolicy := ⟨2, some 150, some 2, some 0, none⟩

/-- One attempt, base 150, factor 2, no jitter, default predicate. -/
def polOne : RetryPolicy := ⟨1, some 150, some 2, some 0, none⟩

/-- Three attempts, base 100, factor 2, jitter ratio 1/5, default
predicate. -/
def polJ : RetryPolicy := ⟨3, some 100, some 2, some (1 / 5), none⟩

/-- A transport answering HTTP 404 on every attempt. -/
def fr404 : Nat → Except JSError JSResponse := fun _ => Except.ok ⟨404⟩

/-- A transport that is aborted on every attempt. -/
def frAbort : Nat → Except JSError JSResponse := fun _ => Except.error (JSError.abortError 0)

/-- A transport failing with a network error on every attempt. -/
def frNet : Nat → Except JSError JSResponse := fun _ => Except.error (JSError.transportError 3)

/-- Call 0 (key 7) running; call 1 (key 7, `lastOneWins`) has
superseded it and installed its own record. -/
def sSuperseded : St := (traceRun cfgU [Ev.submit 0 oKey7, Ev.submit 1 oKey7W]).getD initSt

/-- `sSuperseded` after the superseded call 0 settles: its `finally`
has run, deleting call 1's record. -/
def sAfterStale : St :=
  (stepFn cfgU sSuperseded (Ev.settle 0 (Outcome.err (JSError.abortError 2)))).getD initSt

/-- One keyed call running. -/
def sOneKeyed : St := (traceRun cfgU [Ev.submit 0 oKey7]).getD initSt

/-- Call 0 (key 7) running as leader, call 1 attached as dedupe
follower. -/
def sFollower : St := (traceRun cfgU [Ev.submit 0 oKey7, Ev.submit 1 oKey7D]).getD initSt

/-- `sFollower` after the leader settled with parsed value 5: the
follower is notified and its own microtask is pending. -/
def sReady : St :=
  (traceRun cfgU [Ev.submit 0 oKey7, Ev.submit 1 oKey7D, Ev.settle 0 (Outcome.ok 5)]).getD initSt

/-- Capacity-1 client state: call 0 running, call 1 queued. -/
def sQueued1 : St := (traceRun cfg1 [Ev.submit 0 oPlain, Ev.submit 1 oPlain]).getD initSt

/-- A call table with calls 0, 1, 2 recorded as queued. -/
def qcalls : Nat → Option CallSt :=
  fun x => if x ≤ 2 then some ⟨oPlain, Phase.queued, false, 0⟩ else none

/-- A state whose wait queue holds calls 1 and 2, below capacity. -/
def sQ2 : St := ⟨0, [1, 2], [], qcalls, [0, 1, 2], 0⟩

/-! ## Claims -/

/-- C1: the claim asserts that with no retry policy configured, a
single failing non-cancellation attempt rejects the caller's future
with exactly that error (one of the four documented kinds).  The code
violates this: in the retry loop's catch block, `willRetry` evaluates
`p!.attempts` (line 161) with `p` undefined, so the rejection is a
`TypeError` — not the attempt's own error and not one of the four
kinds.  This theorem evaluates the embedded `runWithRetry` at the
failing input: a lone attempt failing with a network error. -/
theorem runWithRetry_no_policy_single_failure :
    (runWithRetry none parse0 frNet u0).result = Outcome.err JSError.typeError
      ∧ (runWithRetry none parse0 frNet u0).attemptsMade = 1
      ∧ Outcome.err JSError.typeError ≠ Outcome.err (JSError.transportError 3) := by
  refine ⟨by decide, by decide, by decide⟩

/-- C2: the claim asserts that under the default retryability
predicate an HTTP 404 failure is never retried.  The code violates
this: `doFetch` throws on every non-ok status, and the loop invokes
the predicate as `shouldRetry(undefined, err)` (line 161), so the
`err`-branch of the default predicate answers true and the 404 failure
IS retried; the predicate's own 502/503/504 response branch is
unreachable from this call site.  Evaluated here: with two attempts
and a transport answering 404 twice, both attempts are consumed and a
backoff sleep happens, while the default predicate itself — applied to
the response as documented — would refuse to retry a 404. -/
theorem runWithRetry_default_retries_404 :
    (runWithRetry (some pol2) parse0 fr404 u0).attemptsMade = 2
      ∧ (runWithRetry (some pol2) parse0 fr404 u0).result = Outcome.err (JSError.httpStatus 404)
      ∧ (runWithRetry (some pol2) parse0 fr404 u0).sleeps = [150]
      ∧ defaultRetryOn (some ⟨404⟩) none = false
      ∧ defaultRetryOn none (some (JSError.httpStatus 404)) = true := by
  refine ⟨by with_unfolding_all decide, by with_unfolding_all decide,
    by with_unfolding_all decide, by decide, by decide⟩

/-- C3 counterexample: the claim says the derived source fires "with
that input's reason".  The code calls `controller.abort()` with no
argument in both the already-aborted path (line 83) and the listener
(line 79), so the derived source carries the default `AbortError`
reason, not the input's reason: composing over an input already
aborted with reason `tagged 5` yields `abortDefault`, and firing a
live input with reason `tagged 9` after composition also yields
`abortDefault`. -/
theorem combineSignals_drops_reason :
    (combineSignals [some (some (AbortReason.tagged 5))]).1 = some AbortReason.abortDefault
      ∧ some AbortReason.abortDefault ≠ some (AbortReason.tagged 5)
      ∧ (signalFire (combineSignals [some none, some none]) 0 (AbortReason.tagged 9)).1
          = some AbortReason.abortDefault
      ∧ some AbortReason.abortDefault ≠ some (AbortReason.tagged 9) := by
  refine ⟨by decide, by decide, by decide, by decide⟩

/-- C3 (amended): if some input is already fired at composition time
the derived source fires synchronously — but with the default
`AbortError` reason, not the input's reason; otherwise the derived
source is live, the first attached input to fire aborts it (again with
the default reason), and once fired no later firing changes it
(at-most-one-fire). -/
theorem combineSignals_fire_behavior :
    (∀ sgs, hasAbortedInput sgs = true →
        (combineSignals sgs).1 = some AbortReason.abortDefault)
      ∧ (∀ sgs, hasAbortedInput sgs = false → (combineSignals sgs).1 = none)
      ∧ (∀ st (j : Nat) (r : AbortReason), st.1 = none → j ∈ st.2 →
          (signalFire st j r).1 = some AbortReason.abortDefault)
      ∧ (∀ st (j : Nat) (r : AbortReason), st.1.isSome = true →
          (signalFire st j r).1 = st.1) := by
  refine ⟨fun sgs h => combineLoop_fired sgs 0 h, fun sgs h => combineLoop_live sgs 0 h, ?_, ?_⟩
  · intro st j r h1 h2
    rw [signalFire, if_pos h2, h1]
  · intro st j r h1
    rw [signalFire]
    by_cases hj : j ∈ st.2
    · rw [if_pos hj]
      cases hst : st.1 with
      | none => rw [hst] at h1; cases h1
      | some x => rfl
    · rw [if_neg hj]

/-- C3 witness: the amended behaviour at concrete inputs: an input
aborted at composition time, a live composition, a first firing, and a
firing on an already-fired derived source. -/
theorem combineSignals_fire_behavior_witness :
    hasAbortedInput [some (some (AbortReason.tagged 5))] = true
      ∧ (combineSignals [some (some (AbortReason.tagged 5))]).1 = some AbortReason.abortDefault
      ∧ hasAbortedInput [some none, none] = false
      ∧ (combineSignals [some none, none]).1 = none
      ∧ (signalFire (combineSignals [some none, none]) 0 (AbortReason.tagged 9)).1
          = some AbortReason.abortDefault
      ∧ (signalFire (some AbortReason.abortDefault, [1]) 1 (AbortReason.tagged 3)).1
          = some AbortReason.abortDefault := by
  refine ⟨by decide, combineSignals_fire_behavior.1 _ (by decide), by decide,
    combineSignals_fire_behavior.2.1 _ (by decide), ?_, ?_⟩
  · exact combineSignals_fire_behavior.2.2.1 _ 0 _
      (combineSignals_fire_behavior.2.1 _ (by decide)) (by decide)
  · exact combineSignals_fire_behavior.2.2.2 (some AbortReason.abortDefault, [1]) 1
      (AbortReason.tagged 3) (by decide)

/-- C4 counterexample: the claim says an attempt's settlement removes
the KeyRecord only if that attempt still owns it.  In the code the
`finally` block deletes the key's record unconditionally (line 284):
call 0 (key 7) is superseded by call 1 (key 7, `lastOneWins`), which
installs its own record; when the stale call 0 settles, call 1's record
is removed even though call 1 is still running. -/
theorem keyRecord_superseded_settle_deletes :
    mapGet sSuperseded.keyMap 7 = some 1
      ∧ (sSuperseded.calls 1).map CallSt.phase = some Phase.running
      ∧ (sSuperseded.calls 0).map CallSt.phase = some Phase.running
      ∧ (stepFn cfgU sSuperseded (Ev.settle 0 (Outcome.err (JSError.abortError 2)))).isSome = true
      ∧ mapGet sAfterStale.keyMap 7 = none
      ∧ (sAfterStale.calls 1).map CallSt.phase = some Phase.running := by
  refine ⟨by decide, by decide, by decide, by decide, by decide, by decide⟩

/-- The amended C4 statement over a client state: at most one record
per key; every record belongs to a running, started attempt with that
key, most recently started among them; and a settling keyed call's
`finally` removes the record for its key unconditionally. -/
def keyRecordProp (s : St) : Prop :=
  (keysOf s.keyMap).Nodup
    ∧ (∀ k c, mapGet s.keyMap k = some c →
        ∃ cs, s.calls c = some cs ∧ cs.phase = Phase.running ∧ cs.opts.key = some k ∧
          cs.started = true ∧
          ∀ d ds, s.calls d = some ds → ds.opts.key = some k → ds.started = true →
            ds.startedAt ≤ cs.startedAt)
    ∧ (∀ c cs k out, s.calls c = some cs → cs.opts.key = some k →
        mapGet (settleCore s c out).keyMap k = none)

/-- C4 (amended): in every reachable client state there is at most one
KeyRecord per key and each record is owned by the most recently
started running attempt for its key; but settlement deletes the key's
record unconditionally, so a superseded attempt settling removes the
record installed by its superseder. -/
theorem keyRecord_invariant_amended (g : Cfg) (s : St) (h : Reachable g s) :
    keyRecordProp s := by
  obtain inv := inv_reachable h
  refine ⟨inv.keysNodup, inv.owner, ?_⟩
  intro c cs k out hcs hk
  have heq : (settleCore s c out).keyMap = settleKM s cs := by
    rw [settleCore.eq_def, hcs]
  rw [heq, settleKM.eq_def, hk]
  simp only
  rw [mapGet_delete, if_pos rfl]

/-- C4 witness: the amended statement at a reachable state holding one
key record. -/
theorem keyRecord_invariant_amended_witness :
    Reachable cfgU sOneKeyed ∧ keyRecordProp sOneKeyed :=
  ⟨@reachable_traceRun cfgU [Ev.submit 0 oKey7] sOneKeyed rfl,
    keyRecord_invariant_amended cfgU sOneKeyed
      (@reachable_traceRun cfgU [Ev.submit 0 oKey7] sOneKeyed rfl)⟩

/-- The C5 statement over a client state: the counter is non-negative,
physically executing attempts never exceed a positive capacity, a
submission arriving with the counter at capacity is queued or dropped
(leaving the counter unchanged), and a settlement dequeues at most one
waiting task. -/
def capacityProp (g : Cfg) (s : St) : Prop :=
  0 ≤ s.inFlight
    ∧ (0 < g.maxInFlight → countRunningZ s ≤ (g.maxInFlight : ℤ))
    ∧ (∀ c o s1, stepFn g s (Ev.submit c o) = some s1 → 0 < g.maxInFlight →
        (g.maxInFlight : ℤ) ≤ s.inFlight →
        ∃ cs, s1.calls c = some cs ∧ (cs.phase = Phase.queued ∨ cs.phase = Phase.dropped)
          ∧ s1.inFlight = s.inFlight)
    ∧ (∀ c out s1, stepFn g s (Ev.settle c out) = some s1 →
        s1.queue = s.queue ∨ ∃ t q1, popTask g s.queue = some (t, q1) ∧ s1.queue = q1)

/-- C5: in every reachable client state the in-flight counter is
non-negative and, when a capacity is configured, bounds the physically
executing attempts; a task submitted at capacity is queued or dropped
rather than run; each settlement-triggered release pops at most one
waiting task. -/
theorem admission_capacity_invariant (g : Cfg) (s : St) (h : Reachable g s) :
    capacityProp g s := by
  obtain inv := inv_reachable h
  refine ⟨?_, ?_, ?_, ?_⟩
  · rw [inv.count]
    exact sumOver_nonneg (fun x _ => actInd_nonneg s.calls x)
  · intro hcap
    have h1 : countRunningZ s ≤ countActiveZ s :=
      sumOver_mono (fun x _ => runInd_le_actInd s.calls x)
    have h2 := inv.cap hcap
    rw [inv.count] at h2
    calc countRunningZ s ≤ countActiveZ s := h1
      _ ≤ (g.maxInFlight : ℤ) := h2
  · intro c o s1 hstep hcap hfull
    replace hstep : submitStep g s c o = some s1 := hstep
    rw [submitStep.eq_def] at hstep
    cases hcs : s.calls c with
    | some cs => rw [hcs] at hstep; cases hstep
    | none =>
      simp only [hcs] at hstep
      rw [if_neg (by
        rw [not_or, not_lt]
        exact ⟨by omega, hfull⟩)] at hstep
      by_cases hstr : g.strategy = QueueStrategy.drop
      · rw [if_pos hstr] at hstep
        injection hstep with h2
        subst h2
        refine ⟨⟨o, Phase.dropped, false, 0⟩, ?_, Or.inr rfl, rfl⟩
        exact setCall_self _ _ _
      · rw [if_neg hstr] at hstep
        injection hstep with h2
        subst h2
        refine ⟨⟨o, Phase.queued, false, 0⟩, ?_, Or.inl rfl, rfl⟩
        exact setCall_self _ _ _
  · intro c out s1 hstep
    replace hstep : settleStep g s c out = some s1 := hstep
    obtain ⟨cs, hcs, hrun, heq⟩ := settleStep_inv hstep
    have invc := @inv_settleCore g s c out cs inv hcs hrun
    subst heq
    have hqueue : (settleCore s c out).queue = s.queue := by
      rw [settleCore.eq_def, hcs]
    rcases dequeue_queue_cases g (settleCore s c out)
        (fun x hx => by
          obtain ⟨ts, hts, _, _⟩ := invc.queueQueued x hx
          rw [hts]
          rfl) with
      ⟨hq1, _⟩ | ⟨t, q1, hp, hq1, _⟩
    · left
      rw [hq1, hqueue]
    · right
      rw [hqueue] at hp
      exact ⟨t, q1, hp, hq1⟩

/-- C5 witness: the capacity facts at a reachable capacity-1 state
whose counter sits at the capacity with one task queued. -/
theorem admission_capacity_invariant_witness :
    Reachable cfg1 sQueued1 ∧ sQueued1.inFlight = 1 ∧ sQueued1.queue = [1]
      ∧ capacityProp cfg1 sQueued1 :=
  ⟨@reachable_traceRun cfg1 [Ev.submit 0 oPlain, Ev.submit 1 oPlain] sQueued1 rfl,
    by decide, by decide,
    admission_capacity_invariant cfg1 sQueued1
      (@reachable_traceRun cfg1 [Ev.submit 0 oPlain, Ev.submit 1 oPlain] sQueued1 rfl)⟩

/-- C6 counterexample: the claim says the finish hook fires exactly
once per non-dedupe-served call regardless of success, failure or
abort.  In the code `onFinish` (line 183) runs only after `fetch`
returned a response: an attempt aborted (or failing in transport)
fires it zero times, and a call that retries fires it once per
response-receiving attempt — here three times for 503, 503, 200. -/
theorem finish_hook_not_fired_on_abort :
    finishCount (runWithRetry (some polOne) parse0 frAbort u0).log = 0
      ∧ (0 : Nat) ≠ 1
      ∧ finishCount (runWithRetry (some pol3) parse0 fr503 u0).log = 3
      ∧ (3 : Nat) ≠ 1 := by
  refine ⟨by decide, by decide, by with_unfolding_all decide, by decide⟩

/-- C6 (amended): the finish hook fires exactly once per attempt whose
`fetch` produced a response — with the ok flag and status — so a call
can fire it zero times (aborted or transport-failed before any
response) or several times (retries); dedupe-served followers never
start an attempt of their own and so never fire it. -/
theorem finish_hook_per_response_attempt :
    (∀ p parse fetched u,
        finishCount (runWithRetry p parse fetched u).log
          = respCount fetched 0 (runWithRetry p parse fetched u).attemptsMade)
      ∧ (∀ g s, Reachable g s → ∀ c cs l, s.calls c = some cs →
          cs.phase = Phase.follower l → cs.started = false) := by
  refine ⟨finishCount_runWithRetry, ?_⟩
  intro g s h c cs l hc hph
  exact ((inv_reachable h).followerLeader c cs l hc hph).1

/-- C6 witness: the per-response firing count at the 503/503/200 run,
and an unstarted dedupe follower in a reachable state. -/
theorem finish_hook_per_response_attempt_witness :
    finishCount (runWithRetry (some pol3) parse0 fr503 u0).log
        = respCount fr503 0 (runWithRetry (some pol3) parse0 fr503 u0).attemptsMade
      ∧ Reachable cfgU sFollower
      ∧ sFollower.calls 1 = some ⟨oKey7D, Phase.follower 0, false, 0⟩
      ∧ (⟨oKey7D, Phase.follower 0, false, 0⟩ : CallSt).started = false := by
  refine ⟨finish_hook_per_response_attempt.1 (some pol3) parse0 fr503 u0,
    @reachable_traceRun cfgU [Ev.submit 0 oKey7, Ev.submit 1 oKey7D] sFollower rfl,
    by decide, ?_⟩
  exact finish_hook_per_response_attempt.2 cfgU sFollower
    (@reachable_traceRun cfgU [Ev.submit 0 oKey7, Ev.submit 1 oKey7D] sFollower rfl)
    1 ⟨oKey7D, Phase.follower 0, false, 0⟩ 0 (by decide) rfl

/-- The C7 statement over a client state: a dedupe-flagged call that
starts running while a record for its key exists only attaches as an
unstarted follower of the record holder; every follower is unstarted
with a running leader; when the leader settles with an outcome every
one of its followers is notified with exactly that outcome; and a
notified follower's own settlement step settles it with exactly the
leader's outcome, still unstarted (it never issued a transport call
nor consumed retry budget). -/
def dedupeProp (g : Cfg) (s : St) : Prop :=
  (∀ c o k l, o.key = some k → o.dedupe = true → o.lastOneWins = false →
      mapGet s.keyMap k = some l →
      runTask s c o = ⟨s.inFlight + 1, s.queue, s.keyMap,
        setCall s.calls c ⟨o, Phase.follower l, false, 0⟩, s.dom, s.clock⟩)
    ∧ (∀ c cs l, s.calls c = some cs → cs.phase = Phase.follower l →
        cs.started = false ∧ ∃ ls, s.calls l = some ls ∧ ls.phase = Phase.running)
    ∧ (∀ L out s1, stepFn g s (Ev.settle L out) = some s1 →
        ∀ c cs, s.calls c = some cs → cs.phase = Phase.follower L →
          s1.calls c = some ⟨cs.opts, Phase.followerReady L out, cs.started, cs.startedAt⟩)
    ∧ (∀ c cs l out, s.calls c = some cs → cs.phase = Phase.followerReady l out →
        cs.started = false ∧ (∃ ls, s.calls l = some ls ∧ ls.phase = Phase.settled out)
          ∧ ∀ s1, stepFn g s (Ev.finishFollower c) = some s1 →
              ∃ cs1, s1.calls c = some cs1 ∧ cs1.phase = Phase.settled out ∧
                cs1.started = false)

/-- C7: in every reachable client state, a dedupe-served call issues
no transport call and consumes no retry budget (it never starts its
own `runWithRetry`), and its future settles with exactly its leader's
outcome. -/
theorem dedupe_follower_serves_leader_outcome (g : Cfg) (s : St) (h : Reachable g s) :
    dedupeProp g s := by
  obtain inv := inv_reachable h
  refine ⟨?_, ?_, ?_, ?_⟩
  · intro c o k l hk hd hw hget
    exact runTask_dedupe_eq hk hd hw hget
  · intro c cs l hc hph
    exact inv.followerLeader c cs l hc hph
  · intro L out s1 hstep c cs hc hph
    replace hstep : settleStep g s L out = some s1 := hstep
    obtain ⟨Lcs, hLcs, hLrun, heq⟩ := settleStep_inv hstep
    subst heq
    have invc := @inv_settleCore g s L out Lcs inv hLcs hLrun
    have hcL : c ≠ L := by
      intro he
      rw [he, hLcs] at hc
      injection hc with hb
      rw [hb, hph] at hLrun
      cases hLrun
    have hcore : (settleCore s L out).calls c
        = some ⟨cs.opts, Phase.followerReady L out, cs.started, cs.startedAt⟩ := by
      have heq2 : (settleCore s L out).calls
          = promoteFollowers
              (setCall s.calls L ⟨Lcs.opts, Phase.settled out, Lcs.started, Lcs.startedAt⟩)
              L out := by
        rw [settleCore.eq_def, hLcs]
      rw [heq2, settle_calls_at, if_neg hcL]
      exact promote_follower_hit hc hph
    have hpres := @dequeue_preserves_calls g (settleCore s L out) c
      ⟨cs.opts, Phase.followerReady L out, cs.started, cs.startedAt⟩
      (fun t ht => by
        obtain ⟨ts, hts, hq2, _⟩ := invc.queueQueued t ht
        exact ⟨ts, hts, hq2⟩)
      hcore (by intro hx; simp at hx)
    rw [hpres, hcore]
  · intro c cs l out hc hph
    obtain ⟨hstf, ls, hls, hlset⟩ := inv.readyLeader c cs l out hc hph
    refine ⟨hstf, ⟨ls, hls, hlset⟩, ?_⟩
    intro s1 hstep
    replace hstep : followerFinishStep g s c = some s1 := hstep
    obtain ⟨cs2, l2, out2, hc2, hph2, heq⟩ := followerFinish_inv hstep
    rw [hc] at hc2
    injection hc2 with hb
    subst hb
    rw [hph] at hph2
    injection hph2 with hb1 hb2
    subst hb1
    subst hb2
    subst heq
    have hcore : (⟨s.inFlight - 1, s.queue, s.keyMap,
        setCall s.calls c ⟨cs.opts, Phase.settled out, cs.started, cs.startedAt⟩,
        s.dom, s.clock⟩ : St).calls c
        = some ⟨cs.opts, Phase.settled out, cs.started, cs.startedAt⟩ := setCall_self _ _ _
    have hpres := @dequeue_preserves_calls g
      ⟨s.inFlight - 1, s.queue, s.keyMap,
        setCall s.calls c ⟨cs.opts, Phase.settled out, cs.started, cs.startedAt⟩,
        s.dom, s.clock⟩ c
      ⟨cs.opts, Phase.settled out, cs.started, cs.startedAt⟩
      (fun t ht => by
        obtain ⟨ts, hts, hq2, _⟩ := inv.queueQueued t ht
        refine ⟨ts, ?_, hq2⟩
        have htc : t ≠ c := by
          intro he
          rw [he, hc] at hts
          injection hts with hb3
          rw [hb3, hq2] at hph
          cases hph
        show setCall s.calls c
          ⟨cs.opts, Phase.settled out, cs.started, cs.startedAt⟩ t = some ts
        rw [setCall_ne _ _ _ _ htc]
        exact hts)
      hcore (by intro hx; simp at hx)
    rw [hpres, hcore]
    exact ⟨⟨cs.opts, Phase.settled out, cs.started, cs.startedAt⟩, rfl, rfl, by rw [hstf]⟩

/-- C7 witness: the dedupe facts at a reachable state with a live
follower and at one where the leader has settled with value 5. -/
theorem dedupe_follower_serves_leader_outcome_witness :
    Reachable cfgU sFollower ∧ dedupeProp cfgU sFollower
      ∧ Reachable cfgU sReady ∧ dedupeProp cfgU sReady
      ∧ mapGet sFollower.keyMap 7 = some 0
      ∧ (sFollower.calls 1).map CallSt.phase = some (Phase.follower 0)
      ∧ (sReady.calls 1).map CallSt.phase = some (Phase.followerReady 0 (Outcome.ok 5)) := by
  refine ⟨@reachable_traceRun cfgU [Ev.submit 0 oKey7, Ev.submit 1 oKey7D] sFollower rfl,
    dedupe_follower_serves_leader_outcome cfgU sFollower
      (@reachable_traceRun cfgU [Ev.submit 0 oKey7, Ev.submit 1 oKey7D] sFollower rfl),
    @reachable_traceRun cfgU
      [Ev.submit 0 oKey7, Ev.submit 1 oKey7D, Ev.settle 0 (Outcome.ok 5)] sReady rfl,
    dedupe_follower_serves_leader_outcome cfgU sReady
      (@reachable_traceRun cfgU
        [Ev.submit 0 oKey7, Ev.submit 1 oKey7D, Ev.settle 0 (Outcome.ok 5)] sReady rfl),
    by decide, by decide, by decide⟩

/-- The C8 statement over a client state: at capacity under a
non-`drop` strategy, `enqueue` appends the new task at the tail of the
wait queue; each release below capacity runs the head of the queue
under `fifo` (so queued tasks start in submission order) and the tail
under `lifo` (most recently enqueued first), leaving the older items
in their order. -/
def releaseOrderProp (g : Cfg) (s : St) : Prop :=
  (∀ c o, s.calls c = none →
      ¬(g.maxInFlight = 0 ∨ s.inFlight < (g.maxInFlight : ℤ)) →
      g.strategy ≠ QueueStrategy.drop →
      submitStep g s c o = some ⟨s.inFlight, s.queue ++ [c], s.keyMap,
        setCall s.calls c ⟨o, Phase.queued, false, 0⟩, s.dom ++ [c], s.clock⟩)
    ∧ (∀ t rest cs, g.strategy = QueueStrategy.fifo →
        ¬(0 < g.maxInFlight ∧ (g.maxInFlight : ℤ) ≤ s.inFlight) →
        s.queue = t :: rest → s.calls t = some cs →
        dequeueStep g s
          = runTask ⟨s.inFlight, rest, s.keyMap, s.calls, s.dom, s.clock⟩ t cs.opts)
    ∧ (∀ t front cs, g.strategy = QueueStrategy.lifo →
        ¬(0 < g.maxInFlight ∧ (g.maxInFlight : ℤ) ≤ s.inFlight) →
        s.queue = front ++ [t] → s.calls t = some cs →
        dequeueStep g s
          = runTask ⟨s.inFlight, front, s.keyMap, s.calls, s.dom, s.clock⟩ t cs.opts)

/-- C8: queued tasks are appended at the tail; a release under `fifo`
runs the queue head (submission order) and under `lifo` runs the queue
tail (most recently enqueued first), per `dequeue` (lines 121-126) and
`enqueue` (lines 128-141). -/
theorem queue_release_order (g : Cfg) (s : St) : releaseOrderProp g s := by
  refine ⟨?_, ?_, ?_⟩
  · intro c o hc hcap hdrop
    simp only [submitStep, hc, if_neg hcap, if_neg hdrop]
  · intro t rest cs hstrat hguard hq hcs
    have hp : popTask g s.queue = some (t, rest) := by
      simp only [popTask, hstrat, hq]
    rw [dequeueStep, if_neg hguard]
    simp only [hp, hcs]
  · intro t front cs hstrat hguard hq hcs
    have hp : popTask g s.queue = some (t, front) := by
      simp only [popTask, hstrat, hq, List.getLast?_concat, List.dropLast_concat]
    rw [dequeueStep, if_neg hguard]
    simp only [hp, hcs]

/-- C8 witness: with calls 1 and 2 waiting (submitted in that order)
and a free slot, the `fifo` client releases call 1 and the `lifo`
client releases call 2. -/
theorem queue_release_order_witness :
    dequeueStep cfg1 sQ2 = runTask ⟨0, [2], [], qcalls, [0, 1, 2], 0⟩ 1 oPlain
      ∧ dequeueStep cfgL sQ2 = runTask ⟨0, [1], [], qcalls, [0, 1, 2], 0⟩ 2 oPlain := by
  constructor
  · exact (queue_release_order cfg1 sQ2).2.1 1 [2] ⟨oPlain, Phase.queued, false, 0⟩
      rfl (by decide) rfl (by decide)
  · exact (queue_release_order cfgL sQ2).2.2 2 [1] ⟨oPlain, Phase.queued, false, 0⟩
      rfl (by decide) rfl (by decide)

/-- C9: the backoff delay is `max 0 (round (raw + raw * jitter * u))`
with `raw = base * factor^(max 0 i)` (lines 68-75); the jitter
perturbation is bounded by `± raw * jitterRatio` whenever the drawn
`u` lies in `[-1, 1]` and the policy's numbers are nonnegative; with
`jitterRatio = 0` the delay is exactly `round raw`; and the
attempts 3 / base 150 / factor 2 / jitter 0 run against the
503, 503, 200 transport sleeps exactly 150 then 300 and resolves. -/
theorem calcBackoffDelay_formula :
    (∀ (p : RetryPolicy) (i : ℤ) (u : ℚ),
        calcBackoffDelay u i p
          = max 0 (jsRound (rawOf p i + rawOf p i * p.jitterRatio.getD (1 / 5) * u)))
      ∧ (∀ (p : RetryPolicy) (i : ℤ) (u : ℚ), -1 ≤ u → u ≤ 1 →
          0 ≤ p.backoffBaseMs.getD 150 → 0 ≤ p.backoffFactor.getD 2 →
          0 ≤ p.jitterRatio.getD (1 / 5) →
          |rawOf p i * p.jitterRatio.getD (1 / 5) * u|
            ≤ rawOf p i * p.jitterRatio.getD (1 / 5))
      ∧ (∀ (p : RetryPolicy) (i : ℤ) (u : ℚ), p.jitterRatio = some 0 →
          0 ≤ p.backoffBaseMs.getD 150 → 0 ≤ p.backoffFactor.getD 2 →
          calcBackoffDelay u i p = jsRound (rawOf p i))
      ∧ (runWithRetry (some pol3) parse0 fr503 u0).sleeps = [150, 300]
      ∧ (runWithRetry (some pol3) parse0 fr503 u0).result = Outcome.ok 200 := by
  refine ⟨fun p i u => rfl, ?_, ?_, by with_unfolding_all decide,
    by with_unfolding_all decide⟩
  · intro p i u hu1 hu2 hb hf hj
    have hraw : 0 ≤ rawOf p i := rawOf_nonneg hb hf
    have ha : 0 ≤ rawOf p i * p.jitterRatio.getD (1 / 5) := mul_nonneg hraw hj
    calc |rawOf p i * p.jitterRatio.getD (1 / 5) * u|
        = rawOf p i * p.jitterRatio.getD (1 / 5) * |u| := by
          rw [abs_mul, abs_of_nonneg ha]
      _ ≤ rawOf p i * p.jitterRatio.getD (1 / 5) * 1 := by
          exact mul_le_mul_of_nonneg_left (abs_le.mpr ⟨hu1, hu2⟩) ha
      _ = rawOf p i * p.jitterRatio.getD (1 / 5) := mul_one _
  · intro p i u hjz hb hf
    show max 0 (jsRound (rawOf p i + rawOf p i * p.jitterRatio.getD (1 / 5) * u))
      = jsRound (rawOf p i)
    rw [hjz]
    simp only [Option.getD_some]
    rw [mul_zero, zero_mul, add_zero]
    exact max_eq_right (jsRound_nonneg (rawOf_nonneg hb hf))

/-- C9 witness: the formula and jitter bound at the jittered policy
(base 100, factor 2, jitter 1/5) with `i = 1`, `u = 1/2`, and the
exact-round fact at the zero-jitter policy. -/
theorem calcBackoffDelay_formula_witness :
    calcBackoffDelay (1 / 2) 1 polJ
        = max 0 (jsRound (rawOf polJ 1 + rawOf polJ 1 * polJ.jitterRatio.getD (1 / 5) * (1 / 2)))
      ∧ |rawOf polJ 1 * polJ.jitterRatio.getD (1 / 5) * (1 / 2)|
          ≤ rawOf polJ 1 * polJ.jitterRatio.getD (1 / 5)
      ∧ calcBackoffDelay (1 / 2) 1 pol3 = jsRound (rawOf pol3 1) := by
  refine ⟨calcBackoffDelay_formula.1 polJ 1 (1 / 2),
    calcBackoffDelay_formula.2.1 polJ 1 (1 / 2) (by norm_num) (by norm_num)
      (by norm_num [polJ]) (by norm_num [polJ]) (by norm_num [polJ]),
    calcBackoffDelay_formula.2.2.1 pol3 1 (1 / 2) rfl
      (by norm_num [pol3]) (by norm_num [pol3])⟩

/-- The C10 statement over a client state: the in-flight counter
counts exactly the slot-holding calls (running leaders and attached
followers); a dedupe hit increments the counter at `run` time and
installs a follower record; while the leader is unsettled, the
follower's settlement microtask cannot run and the follower holds a
slot; and when it does run (leader settled with the shared outcome) it
gives back exactly one slot and triggers exactly one dequeue step,
which either leaves the queue alone (net counter change `-1`) or
releases exactly one waiting task (net counter change `0`). -/
def followerSlotProp (g : Cfg) (s : St) : Prop :=
  s.inFlight = countActiveZ s
    ∧ (∀ c o k l, o.key = some k → o.dedupe = true → o.lastOneWins = false →
        mapGet s.keyMap k = some l →
        (runTask s c o).inFlight = s.inFlight + 1
          ∧ (runTask s c o).calls c = some ⟨o, Phase.follower l, false, 0⟩)
    ∧ (∀ c cs l, s.calls c = some cs → cs.phase = Phase.follower l →
        stepFn g s (Ev.finishFollower c) = none ∧ actInd s.calls c = 1)
    ∧ (∀ c s1, stepFn g s (Ev.finishFollower c) = some s1 →
        ∃ cs l out, s.calls c = some cs ∧ cs.phase = Phase.followerReady l out
          ∧ (∃ ls, s.calls l = some ls ∧ ls.phase = Phase.settled out)
          ∧ ((s1.queue = s.queue ∧ s1.inFlight = s.inFlight - 1)
              ∨ ∃ t q1, popTask g s.queue = some (t, q1) ∧ s1.queue = q1
                  ∧ s1.inFlight = s.inFlight))

/-- C10: in every reachable client state, a dedupe-served follower
increments the shared in-flight counter at `run` (line 229), holds the
slot for as long as its leader is unsettled, and releases it only in
its own settlement microtask (lines 248-252), which runs exactly one
dequeue step. -/
theorem follower_slot_accounting (g : Cfg) (s : St) (h : Reachable g s) :
    followerSlotProp g s := by
  obtain inv := inv_reachable h
  refine ⟨inv.count, ?_, ?_, ?_⟩
  · intro c o k l hk hd hw hget
    rw [runTask_dedupe_eq hk hd hw hget]
    exact ⟨rfl, setCall_self _ _ _⟩
  · intro c cs l hc hph
    constructor
    · cases hstep : stepFn g s (Ev.finishFollower c) with
      | none => rfl
      | some s1 =>
        exfalso
        replace hstep : followerFinishStep g s c = some s1 := hstep
        obtain ⟨cs2, l2, out2, hc2, hph2, _⟩ := followerFinish_inv hstep
        rw [hc] at hc2
        injection hc2 with hb
        rw [← hb, hph] at hph2
        cases hph2
    · rw [actInd]
      simp only [hc, hph]
      rfl
  · intro c s1 hstep
    replace hstep : followerFinishStep g s c = some s1 := hstep
    obtain ⟨cs, l, out, hc, hph, heq⟩ := followerFinish_inv hstep
    obtain ⟨hstf, ls, hls, hlset⟩ := inv.readyLeader c cs l out hc hph
    refine ⟨cs, l, out, hc, hph, ⟨ls, hls, hlset⟩, ?_⟩
    subst heq
    have hq1 : ∀ x ∈ (⟨s.inFlight - 1, s.queue, s.keyMap,
        setCall s.calls c ⟨cs.opts, Phase.settled out, cs.started, cs.startedAt⟩,
        s.dom, s.clock⟩ : St).queue,
        ((⟨s.inFlight - 1, s.queue, s.keyMap,
          setCall s.calls c ⟨cs.opts, Phase.settled out, cs.started, cs.startedAt⟩,
          s.dom, s.clock⟩ : St).calls x).isSome = true := by
      intro x hx
      obtain ⟨ts, hts, _, _⟩ := inv.queueQueued x hx
      show (setCall s.calls c
        ⟨cs.opts, Phase.settled out, cs.started, cs.startedAt⟩ x).isSome = true
      by_cases hxc : x = c
      · rw [hxc, setCall_self]
        rfl
      · rw [setCall_ne _ _ _ _ hxc, hts]
        rfl
    rcases dequeue_queue_cases g _ hq1 with ⟨hqe, hife⟩ | ⟨t, q1, hp, hqe, hife⟩
    · left
      exact ⟨hqe, hife⟩
    · right
      refine ⟨t, q1, hp, hqe, ?_⟩
      rw [hife]
      dsimp only
      omega

/-- C10 witness: the slot accounting at the reachable state with a
live follower and at the one where the leader has settled; concretely
the counter stays at 2 while both are attached, remains 1 after the
leader settles (the follower still holds its slot), and drops to 0
only at the follower's own settlement step. -/
theorem follower_slot_accounting_witness :
    Reachable cfgU sFollower ∧ followerSlotProp cfgU sFollower
      ∧ Reachable cfgU sReady ∧ followerSlotProp cfgU sReady
      ∧ sFollower.inFlight = 2 ∧ sReady.inFlight = 1
      ∧ (stepFn cfgU sReady (Ev.finishFollower 1)).map St.inFlight = some 0 := by
  refine ⟨@reachable_traceRun cfgU [Ev.submit 0 oKey7, Ev.submit 1 oKey7D] sFollower rfl,
    follower_slot_accounting cfgU sFollower
      (@reachable_traceRun cfgU [Ev.submit 0 oKey7, Ev.submit 1 oKey7D] sFollower rfl),
    @reachable_traceRun cfgU
      [Ev.submit 0 oKey7, Ev.submit 1 oKey7D, Ev.settle 0 (Outcome.ok 5)] sReady rfl,
    follower_slot_accounting cfgU sReady
      (@reachable_traceRun cfgU
        [Ev.submit 0 oKey7, Ev.submit 1 oKey7D, Ev.settle 0 (Outcome.ok 5)] sReady rfl),
    by decide, by decide, by decide⟩
